import Mathlib

/-!
A shallow embedding of `src/FileMovement.py`, a one-shot file organizer:
it scans a directory tree, groups files by uppercased extension, moves each
file into a folder named after its extension key (renaming `stem_N.suffix`
on collision), and finally removes directories left empty, excluding the
per-extension folders.

The filesystem is modelled as a finite tree state: a list of file entries
(path relative to the root, paired with an abstract content identifier) and
a list of directory paths.  List order of `FS.files` plays the role of the
`os.walk` traversal order, which the source does not pin down.  All
operations are executable.
-/

namespace FileMovement

/-- A path relative to the root directory, as a list of name components. -/
abbrev FsPath : Type := List String

/-- The filesystem tree under the root directory.  `files` maps each file
path to an abstract content identifier; `dirs` lists the directories that
exist under the root (the root itself, `[]`, is not listed). -/
structure FS where
  files : List (FsPath × Nat)
  dirs : List FsPath
deriving DecidableEq, Repr

/-! ### Filename helpers (`pathlib` semantics)

`Path.suffix` in `pathlib` is `name[i:]` where `i` is the index of the last
dot, provided `0 < i < len(name) - 1`, and `""` otherwise (so dotfiles such
as `.bashrc` and names ending in a dot have no suffix).  `Path.stem` is the
name with the suffix removed. -/

/-- Index of the last occurrence of a character in a list, like `str.rfind`
(with `none` for "not found"). -/
def lastIdxOf (c : Char) : List Char → Option Nat
  | [] => none
  | x :: xs =>
    match lastIdxOf c xs with
    | some i => some (i + 1)
    | none => if x = c then some 0 else none

/-- `pathlib.PurePath.suffix` of a filename. -/
def pySuffix (name : String) : String :=
  match lastIdxOf '.' name.toList with
  | none => ""
  | some i =>
    if 0 < i ∧ i < name.toList.length - 1 then String.mk (name.toList.drop i)
    else ""

/-- `pathlib.PurePath.stem` of a filename: the name with its suffix cut off. -/
def pyStem (name : String) : String :=
  String.mk (name.toList.take (name.toList.length - (pySuffix name).toList.length))

/-- Python `str.lstrip('.')`: drop all leading dots. -/
def lstripDots (s : String) : String :=
  String.mk (s.toList.dropWhile (fun c => c = '.'))

/-- Python `str.upper()` (ASCII letters, which is all the organizer's keys
are made of after uppercasing an extension). -/
def strUpper (s : String) : String := String.mk (s.toList.map Char.toUpper)

/-- The Classifier (lines 56-64): `extension = file_path.suffix.lstrip('.').upper()`,
falling back to the sentinel `"NO_EXTENSION"` when that is empty. -/
def extensionKey (name : String) : String :=
  if strUpper (lstripDots (pySuffix name)) = "" then "NO_EXTENSION"
  else strUpper (lstripDots (pySuffix name))

/-! ### Decimal rendering of the collision counter

The source interpolates the counter with `f"..._{counter}..."`, i.e. decimal
notation.  `natRepr` renders a natural number in decimal (most significant
digit first), via an explicit fuel argument so that it is structural. -/

/-- The ASCII digit character for `d < 10`. -/
def digitChar (d : Nat) : Char := Char.ofNat (48 + d)

/-- Fueled decimal rendering; `fuel > n` suffices. -/
def natDigitsCore : Nat → Nat → List Char → List Char
  | 0, _, acc => acc
  | fuel + 1, n, acc =>
    if n < 10 then digitChar n :: acc
    else natDigitsCore fuel (n / 10) (digitChar (n % 10) :: acc)

/-- Decimal rendering of a natural number, as Python's `f"{n}"`. -/
def natRepr (n : Nat) : String := String.mk (natDigitsCore (n + 1) n [])

/-! ### Scanner -/

/-- `get_all_files` (lines 13-27): recursively collect every file path under
the root.  In the model the state already holds the flat list; its order
stands for the `os.walk` traversal order. -/
def get_all_files (fs : FS) : List FsPath := fs.files.map (fun f => f.1)

/-! ### Classifier -/

/-- The extension key of a file path: the key of its final component. -/
def fileKey (p : FsPath) : String := extensionKey (p.getLastD "")

/-- Append a file to its group, keeping first-insertion key order, exactly
as a Python `defaultdict(list)` does. -/
def insertGrouped (k : String) (p : FsPath) :
    List (String × List FsPath) → List (String × List FsPath)
  | [] => [(k, [p])]
  | (k', ps) :: rest =>
    if k' = k then (k', ps ++ [p]) :: rest
    else (k', ps) :: insertGrouped k p rest

/-- `files_by_type` (lines 55-64): group the scanned paths by extension key. -/
def groupByKey (paths : List FsPath) : List (String × List FsPath) :=
  paths.foldl (fun acc p => insertGrouped (fileKey p) p acc) []

/-! ### Mover -/

/-- `Path.exists()`: a file or a directory occupies the path. -/
def pathExists (fs : FS) (p : FsPath) : Bool :=
  fs.files.any (fun f => decide (f.1 = p)) || fs.dirs.any (fun d => decide (d = p))

/-- Candidate destination paths tried by the collision loop (lines 90-97):
first `<key>/<name>`, then `<key>/<stem>_<N><suffix>` for `N = 1, 2, ...`. -/
def destCandidate (key name : String) : Nat → FsPath
  | 0 => [key, name]
  | k + 1 => [key, pyStem name ++ "_" ++ natRepr (k + 1) ++ pySuffix name]

/-- The `while dest_file.exists()` loop: starting at index `i`, advance while
the candidate is occupied.  The fuel bounds the number of iterations; the
caller passes more fuel than there are occupied paths, so the fuel never
runs out (`resolveDestIdx_not_occupied` below). -/
def findFreeIdx (occ : Nat → Bool) : Nat → Nat → Nat
  | 0, i => i
  | fuel + 1, i => if occ i then findFreeIdx occ fuel (i + 1) else i

/-- Index of the destination candidate the collision loop settles on. -/
def resolveDestIdx (fs : FS) (key name : String) : Nat :=
  findFreeIdx (fun k => pathExists fs (destCandidate key name k))
    (fs.files.length + fs.dirs.length + 1) 0

/-- `shutil.move` on the file table: the entry at `src` is renamed to `dst`;
an entry already at `dst` would be overwritten (the collision loop ensures
this never happens). -/
def shutil_move (files : List (FsPath × Nat)) (src dst : FsPath) :
    List (FsPath × Nat) :=
  (files.filter (fun f => decide (f.1 ≠ dst))).map
    (fun f => if f.1 = src then (dst, f.2) else f)

/-- Accumulated state of the move loop: the filesystem plus the two counters
`total_moved` and `total_errors`. -/
structure MoveState where
  fs : FS
  moved : Nat
  errors : Nat
deriving DecidableEq, Repr

/-- Body of the per-file loop (lines 84-106): skip a file already directly
in the destination folder; otherwise resolve a free destination name and
move.  `shutil.move` fails (caught, error counted) iff the source entry is
gone, the one failure mode the ideal-filesystem model can express. -/
def moveFile (key : String) (st : MoveState) (p : FsPath) : MoveState :=
  if p.dropLast = [key] then st
  else
    let name := p.getLastD ""
    let dst := destCandidate key name (resolveDestIdx st.fs key name)
    if st.fs.files.any (fun f => decide (f.1 = p)) then
      { fs := { files := shutil_move st.fs.files p dst, dirs := st.fs.dirs },
        moved := st.moved + 1, errors := st.errors }
    else { st with errors := st.errors + 1 }

/-- Body of the per-group loop (lines 71-106).  `mkdir(exist_ok=True)`
raises iff a non-directory occupies the folder path, in which case every
file of the group is counted as an error and the group is skipped. -/
def processGroup (st : MoveState) (g : String × List FsPath) : MoveState :=
  if st.fs.files.any (fun f => decide (f.1 = [g.1])) then
    { st with errors := st.errors + g.2.length }
  else
    g.2.foldl (moveFile g.1)
      { fs :=
          if st.fs.dirs.any (fun d => decide (d = [g.1])) then st.fs
          else { files := st.fs.files, dirs := st.fs.dirs ++ [[g.1]] },
        moved := st.moved, errors := st.errors }

/-! ### Cleaner -/

/-- The path `p` lies strictly below directory `d` (`d` is a proper prefix
of `p`). -/
def strictUnder (d p : FsPath) : Bool :=
  decide (d <+: p) && decide (d ≠ p)

/-- `not any(dir_path.iterdir())`: on a real filesystem a directory has a
direct entry iff some file or directory lies strictly below it. -/
def dirEmpty (fs : FS) (d : FsPath) : Bool :=
  fs.files.all (fun f => !(strictUnder d f.1)) &&
    fs.dirs.all (fun e => !(strictUnder d e))

/-- Body of the cleanup loop (lines 130-145): skip directories whose
basename is an excluded key, then remove the directory iff it is currently
empty. -/
def removeIfEmpty (exclude : List String) (fs : FS) (d : FsPath) : FS :=
  if exclude.any (fun k => decide (k = d.getLastD "")) then fs
  else if dirEmpty fs d then { files := fs.files, dirs := fs.dirs.erase d }
  else fs

/-- Length of the longest directory path. -/
def maxLen (ds : List FsPath) : Nat := ds.foldl (fun m d => max m d.length) 0

/-- `os.walk(directory, topdown=False)` considers every directory exactly
once, each strictly after all directories below it; the model realizes this
children-before-parents order by processing path lengths from the deepest
level upwards (the relative order of incomparable directories is not
observable, since removal decisions depend only on the subtree below). -/
def cleanupRounds (exclude : List String) (orig : List FsPath) : Nat → FS → FS
  | 0, fs => fs
  | l + 1, fs =>
    cleanupRounds exclude orig l
      ((orig.filter (fun d => decide (d.length = l + 1))).foldl
        (removeIfEmpty exclude) fs)

/-- `cleanup_empty_dirs` (lines 119-148): bottom-up removal of empty
directories, excluding those named after an extension key of this run. -/
def cleanup_empty_dirs (fs : FS) (exclude : List String) : FS :=
  cleanupRounds exclude fs.dirs (maxLen fs.dirs) fs

/-! ### Orchestrator -/

/-- The run's summary: the two printed counters, the cleanup count, and the
two early-exit conditions (invalid directory / no files found). -/
structure Stats where
  moved : Nat
  errors : Nat
  removed : Nat
  invalidDir : Bool
  nothingToDo : Bool
deriving DecidableEq, Repr

/-- `organize_files` on a valid directory (lines 45-116): scan, short-circuit
when no files were found, group, move group by group, then clean up empty
directories, reporting the counters. -/
def organize_dir (fs : FS) : FS × Stats :=
  let all_files := get_all_files fs
  if all_files.isEmpty then
    (fs, { moved := 0, errors := 0, removed := 0,
           invalidDir := false, nothingToDo := true })
  else
    let files_by_type := groupByKey all_files
    let st := files_by_type.foldl processGroup { fs := fs, moved := 0, errors := 0 }
    let cleaned := cleanup_empty_dirs st.fs (files_by_type.map (fun g => g.1))
    (cleaned,
     { moved := st.moved, errors := st.errors,
       removed := st.fs.dirs.length - cleaned.dirs.length,
       invalidDir := false, nothingToDo := false })

/-- What the user-supplied path points at: nothing, a non-directory (a plain
file with some content), or a directory tree. -/
inductive RootInput where
  | missing : RootInput
  | nonDirFile : Nat → RootInput
  | dir : FS → RootInput
deriving DecidableEq, Repr

/-- `source_path.exists() and source_path.is_dir()` combined. -/
def rootIsDir : RootInput → Bool
  | .dir _ => true
  | _ => false

/-- `organize_files` (lines 30-116): validate the path first (lines 41-43);
an invalid path only prints an error and returns, mutating nothing. -/
def organize_files : RootInput → RootInput × Stats
  | .dir fs => ((.dir (organize_dir fs).1), (organize_dir fs).2)
  | r => (r, { moved := 0, errors := 0, removed := 0,
               invalidDir := true, nothingToDo := false })

/-! ### The specification's own phrasing of the Classifier

Spec 4.2: "extract the filename's suffix after the last `.`; if absent or
the filename has no extension, key = `NO_EXTENSION`; otherwise uppercase
the suffix text (without the dot)."  A filename "has an extension" when its
last dot is neither its first nor its last character (the usual convention:
dotfiles like `.bashrc` and names ending in a dot are extensionless). -/
def specExtensionKey (name : String) : String :=
  match lastIdxOf '.' name.toList with
  | none => "NO_EXTENSION"
  | some i =>
    if 0 < i ∧ i < name.toList.length - 1 then
      strUpper (String.mk (name.toList.drop (i + 1)))
    else "NO_EXTENSION"

/-! ### Proof-layer helper predicates and functions -/

/-- Recover the value of a decimal digit string. -/
def digitsVal (cs : List Char) : Nat :=
  cs.foldl (fun v c => v * 10 + (c.toNat - 48)) 0

/-- The multiset of file contents, as the list of content identifiers in
table order. -/
def contents (fs : FS) : List Nat := fs.files.map (fun f => f.2)

/-- A file entry is settled when it sits directly in the extension folder
matching its own key. -/
def Settled (f : FsPath × Nat) : Prop :=
  ∃ k n, f.1 = [k, n] ∧ extensionKey n = k

/-- Keys classify their members. -/
def KeyConsistent (acc : List (String × List FsPath)) : Prop :=
  ∀ g ∈ acc, ∀ p ∈ g.2, fileKey p = g.1

/-- Every member of a group is one of the grouped paths. -/
def MembersFrom (acc : List (String × List FsPath)) (L : List FsPath) : Prop :=
  ∀ g ∈ acc, ∀ p ∈ g.2, p ∈ L

/-! ### Concrete directory trees used as test inputs -/

/-- The spec's scenario: `a.txt`, `b.txt` and `sub/b.txt` under the root. -/
def exampleC4 : FS :=
  ⟨[([("a.txt" : String)], 0), (["b.txt"], 1), (["sub", "b.txt"], 2)],
    [["sub"]]⟩

/-- Two same-named files in different source directories. -/
def exampleTwin : FS :=
  ⟨[(["x", "f.txt"], 10), (["y", "f.txt"], 20)], [["x"], ["y"]]⟩

/-- A state with the first destination name already taken. -/
def exampleOccupied : FS := ⟨[(["TXT", "f.txt"], 0)], [["TXT"]]⟩

/-- Two files named `file.` (trailing dot): the collision rename produces
`file._1`, whose extension key differs. -/
def exampleTrailingDot : FS :=
  ⟨[(["file."], 0), (["sub", "file."], 1)], [["sub"]]⟩

/-- A plain file named exactly `TXT` blocks that group's folder creation. -/
def exampleKeyFile : FS := ⟨[(["a.txt"], 1), (["TXT"], 2)], []⟩

/-- An empty nested directory `sub/PDF` while a `.pdf` file is scanned. -/
def exampleNested : FS :=
  ⟨[(["x", "a.pdf"], 0)], [["x"], ["sub"], ["sub", "PDF"]]⟩

/-- An empty chain `a/b/c` next to a non-empty directory `z`. -/
def exampleChain : FS :=
  ⟨[(["z", "f.txt"], 0)], [["a"], ["a", "b"], ["a", "b", "c"], ["z"]]⟩

/-- No files at all, only pre-existing empty directories. -/
def exampleEmptyDirs : FS := ⟨[], [["leftover"], ["a", "b"]]⟩

/-! ## Basic facts about the string helpers -/

theorem string_data_append (s t : String) : (s ++ t).data = s.data ++ t.data := by
  cases s; cases t; rfl

theorem string_mk_data (cs : List Char) : (String.mk cs).data = cs := rfl

theorem string_toList (s : String) : s.toList = s.data := rfl

theorem lastIdxOf_eq_none {c : Char} {cs : List Char} :
    lastIdxOf c cs = none ↔ c ∉ cs := by
  induction cs with
  | nil => simp [lastIdxOf]
  | cons x xs ih =>
    simp only [lastIdxOf]
    cases h : lastIdxOf c xs with
    | some i =>
      have hmem : c ∈ xs := by
        by_contra hc
        simp [ih.mpr hc] at h
      simp [hmem]
    | none =>
      have hnx : c ∉ xs := ih.mp h
      by_cases hx : x = c
      · simp [hx]
      · simp [hx, hnx]
        exact fun hcx => hx hcx.symm

theorem lastIdxOf_append (c : Char) (xs ys : List Char) :
    lastIdxOf c (xs ++ ys) =
      match lastIdxOf c ys with
      | some j => some (xs.length + j)
      | none => lastIdxOf c xs := by
  induction xs with
  | nil => cases h : lastIdxOf c ys <;> simp [h, lastIdxOf]
  | cons x xs ih =>
    simp only [List.cons_append, lastIdxOf, List.append_eq]
    rw [ih]
    cases h : lastIdxOf c ys with
    | some j =>
      simp only [List.length_cons]
      congr 1
      omega
    | none => rfl

theorem lastIdxOf_spec {c : Char} {cs : List Char} {i : Nat}
    (h : lastIdxOf c cs = some i) :
    i < cs.length ∧ ∃ rest, cs.drop i = c :: rest ∧ c ∉ rest := by
  induction cs generalizing i with
  | nil => simp [lastIdxOf] at h
  | cons x xs ih =>
    simp only [lastIdxOf] at h
    cases h' : lastIdxOf c xs with
    | some j =>
      rw [h'] at h
      obtain ⟨hlt, rest, hdrop, hmem⟩ := ih h'
      cases h
      exact ⟨by simpa using Nat.succ_lt_succ hlt, rest, by simpa using hdrop, hmem⟩
    | none =>
      rw [h'] at h
      by_cases hx : x = c
      · simp only [hx, if_pos rfl, Option.some.injEq] at h
        cases h
        exact ⟨by simp, xs, by simp [hx], lastIdxOf_eq_none.mp h'⟩
      · simp [hx] at h

/-! ## Facts about the decimal rendering of the collision counter -/

theorem natDigitsCore_acc (fuel : Nat) :
    ∀ n acc, natDigitsCore fuel n acc = natDigitsCore fuel n [] ++ acc := by
  induction fuel with
  | zero => intro n acc; simp [natDigitsCore]
  | succ fuel ih =>
    intro n acc
    by_cases h : n < 10
    · simp [natDigitsCore, h]
    · simp only [natDigitsCore, if_neg h]
      rw [ih (n / 10) (digitChar (n % 10) :: acc), ih (n / 10) [digitChar (n % 10)]]
      simp

theorem natDigitsCore_fuel :
    ∀ n fuel₁ fuel₂, n < fuel₁ → n < fuel₂ →
      natDigitsCore fuel₁ n [] = natDigitsCore fuel₂ n [] := by
  intro n
  induction n using Nat.strong_induction_on with
  | _ n ih =>
    intro fuel₁ fuel₂ h₁ h₂
    match fuel₁, fuel₂ with
    | f₁ + 1, f₂ + 1 =>
      by_cases h : n < 10
      · simp [natDigitsCore, h]
      · simp only [natDigitsCore, if_neg h]
        rw [natDigitsCore_acc f₁, natDigitsCore_acc f₂]
        have hd : n / 10 < n := Nat.div_lt_self (by omega) (by omega)
        rw [ih (n / 10) hd f₁ f₂ (by omega) (by omega)]

theorem natRepr_data_lt {n : Nat} (h : n < 10) :
    (natRepr n).data = [digitChar n] := by
  simp [natRepr, natDigitsCore, h]

theorem natRepr_data_ge {n : Nat} (h : ¬ n < 10) :
    (natRepr n).data = (natRepr (n / 10)).data ++ [digitChar (n % 10)] := by
  have hd : n / 10 < n := Nat.div_lt_self (by omega) (by omega)
  show natDigitsCore (n + 1) n [] =
    natDigitsCore (n / 10 + 1) (n / 10) [] ++ [digitChar (n % 10)]
  rw [show natDigitsCore (n + 1) n [] = natDigitsCore n (n / 10) [digitChar (n % 10)]
    from by simp [natDigitsCore, h]]
  rw [natDigitsCore_acc, natDigitsCore_fuel (n / 10) n (n / 10 + 1) (by omega) (by omega)]

theorem digitChar_ne_dot : ∀ d, d < 10 → digitChar d ≠ '.' := by decide

theorem digitChar_toNat : ∀ d, d < 10 → (digitChar d).toNat = 48 + d := by decide

theorem natRepr_digits (n : Nat) :
    ∀ c ∈ (natRepr n).data, ∃ d, d < 10 ∧ c = digitChar d := by
  induction n using Nat.strong_induction_on with
  | _ n ih =>
    intro c hc
    by_cases h : n < 10
    · rw [natRepr_data_lt h] at hc
      simp at hc
      exact ⟨n, h, hc⟩
    · rw [natRepr_data_ge h] at hc
      rcases List.mem_append.mp hc with h1 | h1
      · exact ih (n / 10) (Nat.div_lt_self (by omega) (by omega)) c h1
      · simp at h1
        exact ⟨n % 10, Nat.mod_lt _ (by omega), h1⟩

theorem dot_not_mem_natRepr (n : Nat) : '.' ∉ (natRepr n).data := by
  intro hc
  obtain ⟨d, hd, he⟩ := natRepr_digits n '.' hc
  exact digitChar_ne_dot d hd he.symm

theorem natRepr_data_ne_nil (n : Nat) : (natRepr n).data ≠ [] := by
  by_cases h : n < 10
  · rw [natRepr_data_lt h]; simp
  · rw [natRepr_data_ge h]; simp

theorem digitsVal_concat (cs : List Char) (c : Char) :
    digitsVal (cs ++ [c]) = digitsVal cs * 10 + (c.toNat - 48) := by
  simp [digitsVal, List.foldl_append]

theorem digitsVal_natRepr (n : Nat) : digitsVal (natRepr n).data = n := by
  induction n using Nat.strong_induction_on with
  | _ n ih =>
    by_cases h : n < 10
    · rw [natRepr_data_lt h]
      simp [digitsVal, digitChar_toNat n h]
    · rw [natRepr_data_ge h, digitsVal_concat,
        ih (n / 10) (Nat.div_lt_self (by omega) (by omega)),
        digitChar_toNat (n % 10) (Nat.mod_lt _ (by omega))]
      omega

theorem natRepr_injective {m n : Nat} (h : natRepr m = natRepr n) : m = n := by
  have : digitsVal (natRepr m).data = digitsVal (natRepr n).data := by rw [h]
  rwa [digitsVal_natRepr, digitsVal_natRepr] at this

/-! ## Structure of `pySuffix`, `pyStem` and `extensionKey` -/

theorem string_eq_iff_data {s t : String} : s = t ↔ s.data = t.data := by
  constructor
  · intro h; rw [h]
  · intro h; cases s; cases t; exact congrArg String.mk h

theorem string_ne_empty_of_data {s : String} (h : s.data ≠ []) : s ≠ "" := by
  intro he
  rw [he] at h
  exact h rfl

theorem lastIdxOf_append_none {c : Char} {ys : List Char} (xs : List Char)
    (h : lastIdxOf c ys = none) : lastIdxOf c (xs ++ ys) = lastIdxOf c xs := by
  rw [lastIdxOf_append, h]

theorem lastIdxOf_append_some {c : Char} {ys : List Char} {j : Nat}
    (xs : List Char) (h : lastIdxOf c ys = some j) :
    lastIdxOf c (xs ++ ys) = some (xs.length + j) := by
  rw [lastIdxOf_append, h]

theorem pySuffix_of_none {name : String} (h : lastIdxOf '.' name.data = none) :
    pySuffix name = "" := by
  simp only [pySuffix, string_toList, h]

theorem pySuffix_of_main {name : String} {i : Nat}
    (h : lastIdxOf '.' name.data = some i)
    (hc : 0 < i ∧ i < name.data.length - 1) :
    pySuffix name = String.mk (name.data.drop i) := by
  simp only [pySuffix, string_toList, h, if_pos hc]

theorem pySuffix_of_side {name : String} {i : Nat}
    (h : lastIdxOf '.' name.data = some i)
    (hc : ¬(0 < i ∧ i < name.data.length - 1)) :
    pySuffix name = "" := by
  simp only [pySuffix, string_toList, h, if_neg hc]

theorem pyStem_data (name : String) :
    (pyStem name).data =
      name.data.take (name.data.length - (pySuffix name).data.length) := rfl

theorem pyStem_of_suffix_empty {name : String} (h : pySuffix name = "") :
    pyStem name = name := by
  rw [string_eq_iff_data, pyStem_data, h]
  simp

theorem stem_append_suffix (name : String) :
    pyStem name ++ pySuffix name = name := by
  by_cases hmain :
      ∃ i, lastIdxOf '.' name.data = some i ∧ 0 < i ∧ i < name.data.length - 1
  · obtain ⟨i, h, hc⟩ := hmain
    have hilen : i < name.data.length := (lastIdxOf_spec h).1
    have hs := pySuffix_of_main h hc
    rw [string_eq_iff_data, string_data_append, pyStem_data, hs]
    simp only [string_mk_data, List.length_drop]
    rw [Nat.sub_sub_self (le_of_lt hilen)]
    exact List.take_append_drop i name.data
  · have hs : pySuffix name = "" := by
      cases h : lastIdxOf '.' name.data with
      | none => exact pySuffix_of_none h
      | some i => exact pySuffix_of_side h (fun hc => hmain ⟨i, h, hc⟩)
    rw [hs, pyStem_of_suffix_empty hs, string_eq_iff_data, string_data_append]
    simp

theorem extensionKey_congr_suffix {a b : String} (h : pySuffix a = pySuffix b) :
    extensionKey a = extensionKey b := by
  unfold extensionKey
  rw [h]

theorem extensionKey_of_suffix_empty {name : String} (h : pySuffix name = "") :
    extensionKey name = "NO_EXTENSION" := by
  unfold extensionKey
  rw [h]
  rfl

theorem dropWhile_dots_eq_self {l : List Char} (h : '.' ∉ l) :
    l.dropWhile (fun c => c = '.') = l := by
  cases l with
  | nil => rfl
  | cons x xs =>
    have hx : ¬(x = '.') := fun he => h (by simp [he])
    simp [List.dropWhile_cons, hx]

theorem cand_data (a b : String) (k : Nat) :
    (a ++ "_" ++ natRepr k ++ b).data =
      a.data ++ '_' :: ((natRepr k).data ++ b.data) := by
  simp [string_data_append]

/-- Splitting a name at the last dot. -/
theorem name_split {name : String} {i : Nat} {rest : List Char}
    (hdrop : name.data.drop i = '.' :: rest) :
    name.data = name.data.take i ++ '.' :: rest := by
  conv_lhs => rw [← List.take_append_drop i name.data]
  rw [hdrop]

theorem rest_length {name : String} {i : Nat} {rest : List Char}
    (hilen : i < name.data.length) (hdrop : name.data.drop i = '.' :: rest) :
    rest.length = name.data.length - i - 1 := by
  have := congrArg List.length hdrop
  simp only [List.length_drop, List.length_cons] at this
  omega

/-- Renaming a file to `<stem>_<N><suffix>` preserves its extension key,
provided the name does not end in a dot (for `name = "x."` the suffix is
empty, the stem keeps the trailing dot, and the renamed `"x._1"` acquires
the different key `"_1"`). -/
theorem extensionKey_rename (name : String) (k : Nat)
    (hlast : name.data.getLast? ≠ some '.') :
    extensionKey (pyStem name ++ "_" ++ natRepr k ++ pySuffix name) =
      extensionKey name := by
  cases h : lastIdxOf '.' name.data with
  | none =>
    have hs : pySuffix name = "" := pySuffix_of_none h
    have hst : pyStem name = name := pyStem_of_suffix_empty hs
    rw [hst, hs, extensionKey_of_suffix_empty hs]
    apply extensionKey_of_suffix_empty
    apply pySuffix_of_none
    rw [cand_data]
    rw [lastIdxOf_append_none name.data (by
      apply lastIdxOf_eq_none.mpr
      intro hmem
      rcases List.mem_cons.mp hmem with h1 | h1
      · exact absurd h1 (by decide)
      · rcases List.mem_append.mp h1 with h2 | h2
        · exact dot_not_mem_natRepr k h2
        · simp at h2)]
    exact h
  | some i =>
    obtain ⟨hilen, rest, hdrop, hrest⟩ := lastIdxOf_spec h
    by_cases hc : 0 < i ∧ i < name.data.length - 1
    · have hs := pySuffix_of_main h hc
      have hstd : (pyStem name).data = name.data.take i := by
        rw [pyStem_data, hs]
        simp only [string_mk_data, List.length_drop]
        rw [Nat.sub_sub_self (le_of_lt hilen)]
      have hrlen : rest.length = name.data.length - i - 1 := rest_length hilen hdrop
      apply extensionKey_congr_suffix
      have hcdata : (pyStem name ++ "_" ++ natRepr k ++ pySuffix name).data =
          (name.data.take i ++ '_' :: (natRepr k).data) ++ ('.' :: rest) := by
        rw [cand_data, hstd, hs]
        simp [string_mk_data, hdrop]
      have hxslen : (name.data.take i ++ '_' :: (natRepr k).data).length =
          i + ((natRepr k).data.length + 1) := by
        simp only [List.length_append, List.length_cons, List.length_take]
        omega
      have hcand_idx : lastIdxOf '.'
          (pyStem name ++ "_" ++ natRepr k ++ pySuffix name).data =
          some (i + ((natRepr k).data.length + 1)) := by
        rw [hcdata, lastIdxOf_append_some _ (by
          show lastIdxOf '.' ('.' :: rest) = some 0
          have : lastIdxOf '.' rest = none := lastIdxOf_eq_none.mpr hrest
          simp [lastIdxOf, this]), hxslen]
        simp
      rw [pySuffix_of_main hcand_idx (by
        constructor
        · omega
        · rw [hcdata]
          simp only [List.length_append, hxslen, List.length_cons]
          omega)]
      rw [string_eq_iff_data]
      simp only [string_mk_data]
      rw [hcdata, ← hxslen, List.drop_left, hs]
      simp [string_mk_data, hdrop]
    · have hs := pySuffix_of_side h hc
      have hst : pyStem name = name := pyStem_of_suffix_empty hs
      have hi0 : i = 0 := by
        by_contra hne
        have hi : i = name.data.length - 1 := by omega
        have hr0 : rest = [] := by
          have hrl := rest_length hilen hdrop
          rw [hi] at hrl
          have : rest.length = 0 := by omega
          exact List.length_eq_zero.mp this
        apply hlast
        rw [name_split hdrop, hr0]
        exact List.getLast?_concat _
      subst hi0
      rw [hst, hs, extensionKey_of_suffix_empty hs]
      apply extensionKey_of_suffix_empty
      apply pySuffix_of_side (i := 0)
      · rw [cand_data]
        rw [lastIdxOf_append_none name.data (by
          apply lastIdxOf_eq_none.mpr
          intro hmem
          rcases List.mem_cons.mp hmem with h1 | h1
          · exact absurd h1 (by decide)
          · rcases List.mem_append.mp h1 with h2 | h2
            · exact dot_not_mem_natRepr k h2
            · simp at h2)]
        exact h
      · simp

/-- The classifier agrees with the specification's description: the key is
the uppercased text after the last dot, and `NO_EXTENSION` for an
extensionless name. -/
theorem extensionKey_eq_specExtensionKey (name : String) :
    extensionKey name = specExtensionKey name := by
  cases h : lastIdxOf '.' name.data with
  | none =>
    rw [extensionKey_of_suffix_empty (pySuffix_of_none h)]
    simp only [specExtensionKey, string_toList, h]
  | some i =>
    by_cases hc : 0 < i ∧ i < name.data.length - 1
    · obtain ⟨hilen, rest, hdrop, hrest⟩ := lastIdxOf_spec h
      have hs := pySuffix_of_main h hc
      have hrlen : rest.length = name.data.length - i - 1 := rest_length hilen hdrop
      have hrne : rest ≠ [] := by
        intro he
        rw [he] at hrlen
        simp only [List.length_nil] at hrlen
        omega
      unfold extensionKey
      rw [hs]
      have hstrip : lstripDots (String.mk (name.data.drop i)) = String.mk rest := by
        rw [string_eq_iff_data]
        simp only [lstripDots, string_toList, string_mk_data, hdrop]
        simp [List.dropWhile_cons, dropWhile_dots_eq_self hrest]
      rw [hstrip]
      have hne : strUpper (String.mk rest) ≠ "" := by
        apply string_ne_empty_of_data
        simp only [strUpper, string_toList, string_mk_data]
        simpa using hrne
      rw [if_neg hne]
      simp only [specExtensionKey, string_toList, h, if_pos hc]
      congr 1
      rw [string_eq_iff_data]
      simp only [string_mk_data]
      have hdeq : name.data.drop (i + 1) = rest := by
        rw [name_split hdrop]
        rw [show name.data.take i ++ '.' :: rest =
          (name.data.take i ++ ['.']) ++ rest by simp]
        have hlen1 : (name.data.take i ++ ['.']).length = i + 1 := by
          simp only [List.length_append, List.length_take, List.length_cons,
            List.length_nil]
          omega
        rw [← hlen1, List.drop_left]
      rw [hdeq]
    · rw [extensionKey_of_suffix_empty (pySuffix_of_side h hc)]
      simp only [specExtensionKey, string_toList, h, if_neg hc]

/-! ## The collision loop settles on the first free destination -/

theorem fileKey_destCandidate (key name : String) (j : Nat)
    (hlast : name.data.getLast? ≠ some '.') :
    fileKey (destCandidate key name j) = extensionKey name := by
  cases j with
  | zero => rfl
  | succ k => exact extensionKey_rename name (k + 1) hlast

theorem destCandidate_injective (key name : String) :
    Function.Injective (destCandidate key name) := by
  have hdata : ∀ k, (pyStem name ++ "_" ++ natRepr k ++ pySuffix name).data =
      (pyStem name).data ++ '_' :: ((natRepr k).data ++ (pySuffix name).data) :=
    fun k => cand_data (pyStem name) (pySuffix name) k
  intro a b hab
  match a, b with
  | 0, 0 => rfl
  | 0, k + 1 =>
    exfalso
    simp only [destCandidate, List.cons.injEq, and_true, true_and] at hab
    have h1 : name.data = (pyStem name).data ++ (pySuffix name).data := by
      conv_lhs => rw [← stem_append_suffix name]
      exact string_data_append _ _
    have h2 := congrArg List.length (h1 ▸ congrArg String.data hab)
    rw [hdata] at h2
    simp only [List.length_append, List.length_cons] at h2
    omega
  | j + 1, 0 =>
    exfalso
    simp only [destCandidate, List.cons.injEq, and_true, true_and] at hab
    have h1 : name.data = (pyStem name).data ++ (pySuffix name).data := by
      conv_lhs => rw [← stem_append_suffix name]
      exact string_data_append _ _
    have h2 := congrArg List.length (h1 ▸ congrArg String.data hab)
    rw [hdata] at h2
    simp only [List.length_append, List.length_cons] at h2
    omega
  | j + 1, k + 1 =>
    simp only [destCandidate, List.cons.injEq, and_true, true_and] at hab
    have h2 := congrArg String.data hab
    rw [hdata, hdata] at h2
    have h3 := List.append_cancel_left h2
    simp only [List.cons.injEq, true_and] at h3
    have h4 := List.append_cancel_right h3
    have h5 : natRepr (j + 1) = natRepr (k + 1) := string_eq_iff_data.mpr h4
    have := natRepr_injective h5
    omega

theorem pathExists_mem {fs : FS} {p : FsPath} (h : pathExists fs p = true) :
    p ∈ fs.files.map (fun f => f.1) ++ fs.dirs := by
  simp only [pathExists, Bool.or_eq_true, List.any_eq_true,
    decide_eq_true_eq] at h
  rcases h with ⟨f, hf, he⟩ | ⟨d, hd, he⟩
  · exact List.mem_append.mpr (Or.inl (List.mem_map.mpr ⟨f, hf, he⟩))
  · exact List.mem_append.mpr (Or.inr (he ▸ hd))

theorem findFreeIdx_spec (occ : Nat → Bool) :
    ∀ (fuel i : Nat), (∃ j, i ≤ j ∧ j < i + fuel ∧ occ j = false) →
      occ (findFreeIdx occ fuel i) = false ∧
      ∀ j, i ≤ j → j < findFreeIdx occ fuel i → occ j = true := by
  intro fuel
  induction fuel with
  | zero =>
    rintro i ⟨j, h1, h2, _⟩
    omega
  | succ fuel ih =>
    intro i hex
    by_cases hi : occ i = true
    · simp only [findFreeIdx, hi, if_true]
      obtain ⟨j, h1, h2, h3⟩ := hex
      have hji : j ≠ i := by
        intro he
        subst he
        rw [hi] at h3
        exact Bool.noConfusion h3
      obtain ⟨ha, hb⟩ := ih (i + 1) ⟨j, by omega, by omega, h3⟩
      refine ⟨ha, fun j hj1 hj2 => ?_⟩
      rcases Nat.eq_or_lt_of_le hj1 with he | hlt
      · rw [← he]; exact hi
      · exact hb j hlt hj2
    · have hocc : occ i = false := by
        cases h : occ i
        · rfl
        · exact absurd h hi
      have hred : findFreeIdx occ (fuel + 1) i = i := by
        simp [findFreeIdx, hocc]
      rw [hred]
      exact ⟨hocc, fun j h1 h2 => by omega⟩

theorem resolveDestIdx_spec (fs : FS) (key name : String) :
    pathExists fs (destCandidate key name (resolveDestIdx fs key name)) = false ∧
      ∀ j, j < resolveDestIdx fs key name →
        pathExists fs (destCandidate key name j) = true := by
  have hex : ∃ j, 0 ≤ j ∧ j < 0 + (fs.files.length + fs.dirs.length + 1) ∧
      pathExists fs (destCandidate key name j) = false := by
    by_contra hall
    push_neg at hall
    have hsub : ((List.range (fs.files.length + fs.dirs.length + 1)).map
        (destCandidate key name)) ⊆ fs.files.map (fun f => f.1) ++ fs.dirs := by
      intro p hp
      obtain ⟨j, hj, he⟩ := List.mem_map.mp hp
      have hjlt := List.mem_range.mp hj
      have hne := hall j (Nat.zero_le j) (by omega)
      have : pathExists fs (destCandidate key name j) = true := by
        cases h : pathExists fs (destCandidate key name j)
        · exact absurd h hne
        · rfl
      rw [← he]
      exact pathExists_mem this
    have hnd : ((List.range (fs.files.length + fs.dirs.length + 1)).map
        (destCandidate key name)).Nodup :=
      (List.nodup_range _).map (destCandidate_injective key name)
    have hle := (hnd.subperm hsub).length_le
    simp only [List.length_map, List.length_range, List.length_append] at hle
    omega
  obtain ⟨ha, hb⟩ := findFreeIdx_spec
    (fun k => pathExists fs (destCandidate key name k))
    (fs.files.length + fs.dirs.length + 1) 0 hex
  exact ⟨ha, fun j hj => hb j (Nat.zero_le j) hj⟩

/-! ## The pipeline preserves file contents -/

theorem bool_eq_false {b : Bool} (h : ¬ b = true) : b = false := by
  cases b
  · rfl
  · exact absurd rfl h

theorem shutil_move_snd {files : List (FsPath × Nat)} {src dst : FsPath}
    (h : files.any (fun f => decide (f.1 = dst)) = false) :
    (shutil_move files src dst).map (fun f => f.2) =
      files.map (fun f => f.2) := by
  simp only [List.any_eq_false, decide_eq_true_eq] at h
  unfold shutil_move
  rw [List.filter_eq_self.mpr (fun f hf => by simpa using h f hf)]
  rw [List.map_map]
  apply List.map_congr_left
  intro f hf
  by_cases he : f.1 = src <;> simp [he]

theorem moveFile_dirs (key : String) (st : MoveState) (p : FsPath) :
    (moveFile key st p).fs.dirs = st.fs.dirs := by
  unfold moveFile
  by_cases h1 : p.dropLast = [key] <;>
    by_cases h2 : st.fs.files.any (fun f => decide (f.1 = p)) = true <;>
      simp [h1, h2]

theorem moveFile_snd (key : String) (st : MoveState) (p : FsPath) :
    (moveFile key st p).fs.files.map (fun f => f.2) =
      st.fs.files.map (fun f => f.2) := by
  unfold moveFile
  by_cases h1 : p.dropLast = [key]
  · simp [h1]
  · simp only [if_neg h1]
    by_cases h2 : st.fs.files.any (fun f => decide (f.1 = p)) = true
    · have hfree := (resolveDestIdx_spec st.fs key (p.getLastD "")).1
      simp only [pathExists, Bool.or_eq_false_iff] at hfree
      rw [if_pos h2]
      exact shutil_move_snd hfree.1
    · rw [if_neg h2]

theorem foldl_moveFile_snd (key : String) (ps : List FsPath) :
    ∀ st : MoveState,
      ((ps.foldl (moveFile key) st).fs).files.map (fun f => f.2) =
        st.fs.files.map (fun f => f.2) := by
  induction ps with
  | nil => intro st; rfl
  | cons p ps ih =>
    intro st
    rw [List.foldl_cons, ih (moveFile key st p), moveFile_snd]

theorem processGroup_snd (st : MoveState) (g : String × List FsPath) :
    (processGroup st g).fs.files.map (fun f => f.2) =
      st.fs.files.map (fun f => f.2) := by
  unfold processGroup
  by_cases h1 : st.fs.files.any (fun f => decide (f.1 = [g.1])) = true
  · simp [h1]
  · simp only [bool_eq_false h1, Bool.false_eq_true, if_false]
    rw [foldl_moveFile_snd]
    by_cases h2 : st.fs.dirs.any (fun d => decide (d = [g.1])) = true <;>
      simp [h2]

theorem foldl_processGroup_snd (gs : List (String × List FsPath)) :
    ∀ st : MoveState,
      ((gs.foldl processGroup st).fs).files.map (fun f => f.2) =
        st.fs.files.map (fun f => f.2) := by
  induction gs with
  | nil => intro st; rfl
  | cons g gs ih =>
    intro st
    rw [List.foldl_cons, ih (processGroup st g), processGroup_snd]

theorem removeIfEmpty_files (exclude : List String) (fs : FS) (d : FsPath) :
    (removeIfEmpty exclude fs d).files = fs.files := by
  unfold removeIfEmpty
  by_cases h1 : (exclude.any fun k => decide (k = d.getLastD "")) = true
  · rw [if_pos h1]
  · rw [if_neg h1]
    by_cases h2 : dirEmpty fs d = true
    · rw [if_pos h2]
    · rw [if_neg h2]

theorem foldl_removeIfEmpty_files (exclude : List String) (ds : List FsPath) :
    ∀ fs : FS, (ds.foldl (removeIfEmpty exclude) fs).files = fs.files := by
  induction ds with
  | nil => intro fs; rfl
  | cons d ds ih =>
    intro fs
    rw [List.foldl_cons, ih (removeIfEmpty exclude fs d), removeIfEmpty_files]

theorem cleanupRounds_files (exclude : List String) (orig : List FsPath) :
    ∀ (l : Nat) (fs : FS), (cleanupRounds exclude orig l fs).files = fs.files := by
  intro l
  induction l with
  | zero => intro fs; rfl
  | succ l ih =>
    intro fs
    unfold cleanupRounds
    rw [ih, foldl_removeIfEmpty_files]

theorem cleanup_empty_dirs_files (fs : FS) (exclude : List String) :
    (cleanup_empty_dirs fs exclude).files = fs.files := by
  unfold cleanup_empty_dirs
  rw [cleanupRounds_files]

/-- Contents survive the whole pipeline, entry for entry. -/
theorem organize_dir_contents (fs : FS) :
    contents (organize_dir fs).1 = contents fs := by
  by_cases h : (get_all_files fs).isEmpty = true
  · simp [organize_dir, contents, h]
  · simp only [organize_dir, contents, bool_eq_false h, Bool.false_eq_true,
      if_false, cleanup_empty_dirs_files]
    exact foldl_processGroup_snd _ _

/-! ## Directories named after a key of the run survive the cleanup -/

theorem foldl_moveFile_dirs (key : String) (ps : List FsPath) :
    ∀ st : MoveState, ((ps.foldl (moveFile key) st).fs).dirs = st.fs.dirs := by
  induction ps with
  | nil => intro st; rfl
  | cons p ps ih =>
    intro st
    rw [List.foldl_cons, ih (moveFile key st p), moveFile_dirs]

theorem processGroup_dirs_mono {d : FsPath} (st : MoveState)
    (g : String × List FsPath) (h : d ∈ st.fs.dirs) :
    d ∈ (processGroup st g).fs.dirs := by
  unfold processGroup
  by_cases h1 : (st.fs.files.any fun f => decide (f.1 = [g.1])) = true
  · rw [if_pos h1]; exact h
  · rw [if_neg h1, foldl_moveFile_dirs]
    by_cases h2 : (st.fs.dirs.any fun e => decide (e = [g.1])) = true
    · rw [if_pos h2]; exact h
    · rw [if_neg h2]
      exact List.mem_append.mpr (Or.inl h)

theorem foldl_processGroup_dirs_mono {d : FsPath}
    (gs : List (String × List FsPath)) :
    ∀ st : MoveState, d ∈ st.fs.dirs → d ∈ ((gs.foldl processGroup st).fs).dirs := by
  induction gs with
  | nil => intro st h; exact h
  | cons g gs ih =>
    intro st h
    rw [List.foldl_cons]
    exact ih _ (processGroup_dirs_mono st g h)

theorem removeIfEmpty_keeps_excluded {exclude : List String} {d : FsPath}
    (fs : FS) (e : FsPath) (hx : d.getLastD "" ∈ exclude)
    (h : d ∈ fs.dirs) : d ∈ (removeIfEmpty exclude fs e).dirs := by
  unfold removeIfEmpty
  by_cases h1 : (exclude.any fun k => decide (k = e.getLastD "")) = true
  · rw [if_pos h1]; exact h
  · rw [if_neg h1]
    have hne : e ≠ d := by
      intro he
      apply h1
      rw [he]
      exact List.any_eq_true.mpr ⟨d.getLastD "", hx, by simp⟩
    by_cases h2 : dirEmpty fs e = true
    · rw [if_pos h2]
      exact (List.mem_erase_of_ne (fun hde => hne hde.symm)).mpr h
    · rw [if_neg h2]; exact h

theorem foldl_removeIfEmpty_keeps_excluded {exclude : List String} {d : FsPath}
    (ds : List FsPath) (hx : d.getLastD "" ∈ exclude) :
    ∀ fs : FS, d ∈ fs.dirs →
      d ∈ (ds.foldl (removeIfEmpty exclude) fs).dirs := by
  induction ds with
  | nil => intro fs h; exact h
  | cons e ds ih =>
    intro fs h
    rw [List.foldl_cons]
    exact ih _ (removeIfEmpty_keeps_excluded fs e hx h)

theorem cleanupRounds_keeps_excluded {exclude : List String} {d : FsPath}
    (orig : List FsPath) (hx : d.getLastD "" ∈ exclude) :
    ∀ (l : Nat) (fs : FS), d ∈ fs.dirs →
      d ∈ (cleanupRounds exclude orig l fs).dirs := by
  intro l
  induction l with
  | zero => intro fs h; exact h
  | succ l ih =>
    intro fs h
    unfold cleanupRounds
    exact ih _ (foldl_removeIfEmpty_keeps_excluded _ hx fs h)

theorem cleanup_keeps_excluded {exclude : List String} {d : FsPath}
    (fs : FS) (hx : d.getLastD "" ∈ exclude) (h : d ∈ fs.dirs) :
    d ∈ (cleanup_empty_dirs fs exclude).dirs :=
  cleanupRounds_keeps_excluded _ hx _ fs h

theorem insertGrouped_keys (k : String) (q : FsPath) :
    ∀ acc : List (String × List FsPath),
      (insertGrouped k q acc).map (fun g => g.1) = acc.map (fun g => g.1) ∨
        (insertGrouped k q acc).map (fun g => g.1) =
          acc.map (fun g => g.1) ++ [k] := by
  intro acc
  induction acc with
  | nil => right; rfl
  | cons g acc ih =>
    match g with
    | (k'', ps) =>
      by_cases he : k'' = k
      · left; simp [insertGrouped, he]
      · rcases ih with h | h
        · left; simp [insertGrouped, he, h]
        · right; simp [insertGrouped, he, h]

theorem insertGrouped_keys_mono {k : String} (k' : String) (q : FsPath)
    (acc : List (String × List FsPath)) (h : k ∈ acc.map (fun g => g.1)) :
    k ∈ (insertGrouped k' q acc).map (fun g => g.1) := by
  rcases insertGrouped_keys k' q acc with he | he <;> rw [he]
  · exact h
  · exact List.mem_append.mpr (Or.inl h)

theorem insertGrouped_key_self (k : String) (q : FsPath) :
    ∀ acc : List (String × List FsPath),
      k ∈ (insertGrouped k q acc).map (fun g => g.1) := by
  intro acc
  induction acc with
  | nil => simp [insertGrouped]
  | cons g acc ih =>
    match g with
    | (k'', ps) =>
      by_cases he : k'' = k
      · simp [insertGrouped, he]
      · simp only [insertGrouped, if_neg he, List.map_cons, List.mem_cons]
        right
        exact ih

theorem foldl_insertGrouped_keys_mono {k : String} (paths : List FsPath) :
    ∀ acc : List (String × List FsPath), k ∈ acc.map (fun g => g.1) →
      k ∈ ((paths.foldl (fun acc p => insertGrouped (fileKey p) p acc)
        acc).map (fun g => g.1)) := by
  induction paths with
  | nil => intro acc h; exact h
  | cons q paths ih =>
    intro acc h
    rw [List.foldl_cons]
    exact ih _ (insertGrouped_keys_mono _ _ _ h)

theorem foldl_insertGrouped_key_mem {p : FsPath} {paths : List FsPath}
    (hp : p ∈ paths) :
    ∀ acc : List (String × List FsPath),
      fileKey p ∈ ((paths.foldl (fun acc p => insertGrouped (fileKey p) p acc)
        acc).map (fun g => g.1)) := by
  induction paths with
  | nil => simp at hp
  | cons q paths ih =>
    intro acc
    rw [List.foldl_cons]
    rcases List.mem_cons.mp hp with h1 | h1
    · subst h1
      exact foldl_insertGrouped_keys_mono paths _ (insertGrouped_key_self _ _ _)
    · exact ih h1 _

theorem fileKey_mem_groupByKey_keys {p : FsPath} {paths : List FsPath}
    (h : p ∈ paths) :
    fileKey p ∈ (groupByKey paths).map (fun g => g.1) :=
  foldl_insertGrouped_key_mem h []

/-! ## The Cleaner: subset and survival facts -/

theorem prefix_len_lt {d e : FsPath} (h : d <+: e) (hne : d ≠ e) :
    d.length < e.length := by
  obtain ⟨t, rfl⟩ := h
  cases t with
  | nil => exact absurd (List.append_nil d).symm hne
  | cons x xs => simp

theorem strictUnder_of_under {d e p : FsPath} (h1 : d <+: e)
    (h2 : strictUnder e p = true) : strictUnder d p = true := by
  simp only [strictUnder, Bool.and_eq_true, decide_eq_true_eq] at h2 ⊢
  obtain ⟨hep, hnep⟩ := h2
  refine ⟨h1.trans hep, ?_⟩
  intro he
  have h3 := prefix_len_lt hep hnep
  have h4 := h1.length_le
  rw [he] at h4
  omega

theorem removeIfEmpty_dirs_subset (exclude : List String) (fs : FS)
    (e : FsPath) : (removeIfEmpty exclude fs e).dirs ⊆ fs.dirs := by
  unfold removeIfEmpty
  by_cases h1 : (exclude.any fun k => decide (k = e.getLastD "")) = true
  · rw [if_pos h1]
    exact fun a h => h
  · rw [if_neg h1]
    by_cases h2 : dirEmpty fs e = true
    · rw [if_pos h2]
      exact List.erase_subset e fs.dirs
    · rw [if_neg h2]
      exact fun a h => h

theorem foldl_removeIfEmpty_dirs_subset (exclude : List String)
    (ds : List FsPath) : ∀ fs : FS,
      (ds.foldl (removeIfEmpty exclude) fs).dirs ⊆ fs.dirs := by
  induction ds with
  | nil => intro fs; exact fun a h => h
  | cons e ds ih =>
    intro fs
    rw [List.foldl_cons]
    exact fun a h => removeIfEmpty_dirs_subset exclude fs e (ih _ h)

theorem cleanupRounds_dirs_subset (exclude : List String) (orig : List FsPath) :
    ∀ (l : Nat) (fs : FS), (cleanupRounds exclude orig l fs).dirs ⊆ fs.dirs := by
  intro l
  induction l with
  | zero => intro fs; exact fun a h => h
  | succ l ih =>
    intro fs
    unfold cleanupRounds
    exact fun a h => foldl_removeIfEmpty_dirs_subset _ _ fs (ih _ h)

theorem cleanup_dirs_subset (fs : FS) (exclude : List String) :
    (cleanup_empty_dirs fs exclude).dirs ⊆ fs.dirs :=
  cleanupRounds_dirs_subset exclude fs.dirs (maxLen fs.dirs) fs

theorem removeIfEmpty_dirs_nodup (exclude : List String) (fs : FS) (e : FsPath)
    (h : fs.dirs.Nodup) : (removeIfEmpty exclude fs e).dirs.Nodup := by
  unfold removeIfEmpty
  by_cases h1 : (exclude.any fun k => decide (k = e.getLastD "")) = true
  · rw [if_pos h1]; exact h
  · rw [if_neg h1]
    by_cases h2 : dirEmpty fs e = true
    · rw [if_pos h2]
      exact h.erase e
    · rw [if_neg h2]; exact h

/-- A directory with a file strictly below it is never removed by one
cleanup step. -/
theorem removeIfEmpty_keeps_nonempty {d : FsPath} (exclude : List String)
    (fs : FS) (e : FsPath)
    (hf : ∃ f ∈ fs.files, strictUnder d f.1 = true)
    (h : d ∈ fs.dirs) : d ∈ (removeIfEmpty exclude fs e).dirs := by
  unfold removeIfEmpty
  by_cases h1 : (exclude.any fun k => decide (k = e.getLastD "")) = true
  · rw [if_pos h1]; exact h
  · rw [if_neg h1]
    by_cases h2 : dirEmpty fs e = true
    · rw [if_pos h2]
      have hne : e ≠ d := by
        intro he
        subst he
        simp only [dirEmpty, Bool.and_eq_true, List.all_eq_true] at h2
        obtain ⟨f, hfm, hfu⟩ := hf
        have := h2.1 f hfm
        rw [hfu] at this
        exact Bool.noConfusion this
      exact (List.mem_erase_of_ne (fun hde => hne hde.symm)).mpr h
    · rw [if_neg h2]; exact h

theorem foldl_removeIfEmpty_keeps_nonempty {d : FsPath} (exclude : List String)
    (ds : List FsPath) : ∀ fs : FS,
      (∃ f ∈ fs.files, strictUnder d f.1 = true) → d ∈ fs.dirs →
      d ∈ (ds.foldl (removeIfEmpty exclude) fs).dirs := by
  induction ds with
  | nil => intro fs _ h; exact h
  | cons e ds ih =>
    intro fs hf h
    rw [List.foldl_cons]
    refine ih _ ?_ (removeIfEmpty_keeps_nonempty exclude fs e hf h)
    rw [removeIfEmpty_files]
    exact hf

theorem cleanupRounds_keeps_nonempty {d : FsPath} (exclude : List String)
    (orig : List FsPath) : ∀ (l : Nat) (fs : FS),
      (∃ f ∈ fs.files, strictUnder d f.1 = true) → d ∈ fs.dirs →
      d ∈ (cleanupRounds exclude orig l fs).dirs := by
  intro l
  induction l with
  | zero => intro fs _ h; exact h
  | succ l ih =>
    intro fs hf h
    unfold cleanupRounds
    refine ih _ ?_ (foldl_removeIfEmpty_keeps_nonempty exclude _ fs hf h)
    rw [foldl_removeIfEmpty_files]
    exact hf

theorem cleanup_keeps_nonempty {d : FsPath} (fs : FS) (exclude : List String)
    (hf : ∃ f ∈ fs.files, strictUnder d f.1 = true) (h : d ∈ fs.dirs) :
    d ∈ (cleanup_empty_dirs fs exclude).dirs :=
  cleanupRounds_keeps_nonempty exclude fs.dirs (maxLen fs.dirs) fs hf h

theorem foldl_max_le_init (ds : List FsPath) :
    ∀ m : Nat, m ≤ ds.foldl (fun m d => max m d.length) m := by
  induction ds with
  | nil => intro m; exact Nat.le_refl m
  | cons d ds ih =>
    intro m
    rw [List.foldl_cons]
    exact le_trans (Nat.le_max_left m d.length) (ih (max m d.length))

theorem length_le_maxLen {e : FsPath} {ds : List FsPath} (h : e ∈ ds) :
    e.length ≤ maxLen ds := by
  unfold maxLen
  have hgen : ∀ (ds : List FsPath) (m : Nat), e ∈ ds →
      e.length ≤ ds.foldl (fun m d => max m d.length) m := by
    intro ds
    induction ds with
    | nil => intro m h'; simp at h'
    | cons d ds ih =>
      intro m h'
      rw [List.foldl_cons]
      rcases List.mem_cons.mp h' with h1 | h1
      · subst h1
        exact le_trans (Nat.le_max_right m e.length)
          (foldl_max_le_init ds (max m e.length))
      · exact ih _ h1
  exact hgen ds 0 h

theorem strictUnder_iff {a b : FsPath} :
    strictUnder a b = true ↔ a <+: b ∧ a ≠ b := by
  simp [strictUnder]

theorem foldl_removeIfEmpty_dirs_nodup (exclude : List String)
    (ds : List FsPath) : ∀ fs : FS, fs.dirs.Nodup →
      (ds.foldl (removeIfEmpty exclude) fs).dirs.Nodup := by
  induction ds with
  | nil => intro fs h; exact h
  | cons e ds ih =>
    intro fs h
    rw [List.foldl_cons]
    exact ih _ (removeIfEmpty_dirs_nodup exclude fs e h)

/-- One cleanup round: inside a subtree that holds no file and no excluded
name, every directory of the processed level is gone afterwards. -/
theorem foldl_removeIfEmpty_subtree {d : FsPath} {exclude : List String}
    {fs0 : FS} (l : Nat)
    (hfiles : ∀ f ∈ fs0.files, strictUnder d f.1 = false)
    (hex : ∀ e ∈ fs0.dirs, d <+: e →
      (exclude.any fun k => decide (k = e.getLastD "")) = false) :
    ∀ (ds : List FsPath) (fs : FS),
      fs.files = fs0.files → fs.dirs ⊆ fs0.dirs → fs.dirs.Nodup →
      (∀ e ∈ fs.dirs, d <+: e → e.length ≤ l + 1) →
      ∀ e ∈ (ds.foldl (removeIfEmpty exclude) fs).dirs, d <+: e →
        e.length ≤ l + 1 ∧ (e.length = l + 1 → e ∉ ds) := by
  intro ds
  induction ds with
  | nil =>
    intro fs hfe hsub hnd hbound e he hde
    exact ⟨hbound e he hde, fun _ => List.not_mem_nil e⟩
  | cons e0 ds ih =>
    intro fs hfe hsub hnd hbound e he hde
    rw [List.foldl_cons] at he
    have hfe1 : (removeIfEmpty exclude fs e0).files = fs0.files := by
      rw [removeIfEmpty_files]; exact hfe
    have hsub1 : (removeIfEmpty exclude fs e0).dirs ⊆ fs0.dirs :=
      fun a h => hsub (removeIfEmpty_dirs_subset _ _ _ h)
    have hnd1 : (removeIfEmpty exclude fs e0).dirs.Nodup :=
      removeIfEmpty_dirs_nodup _ _ _ hnd
    have hbound1 : ∀ e ∈ (removeIfEmpty exclude fs e0).dirs, d <+: e →
        e.length ≤ l + 1 :=
      fun e h hd => hbound e (removeIfEmpty_dirs_subset _ _ _ h) hd
    obtain ⟨hb, hnin⟩ := ih _ hfe1 hsub1 hnd1 hbound1 e he hde
    refine ⟨hb, fun hlen hmem => ?_⟩
    rcases List.mem_cons.mp hmem with h1 | h1
    · subst h1
      have he1 : e ∈ (removeIfEmpty exclude fs e).dirs :=
        foldl_removeIfEmpty_dirs_subset _ _ _ he
      by_cases hin : e ∈ fs.dirs
      · have hexk := hex e (hsub hin) hde
        have hempty : dirEmpty fs e = true := by
          simp only [dirEmpty, Bool.and_eq_true, List.all_eq_true]
          constructor
          · intro f hfm
            have hsf : strictUnder e f.1 = false := by
              cases hx : strictUnder e f.1
              · rfl
              · exfalso
                have hdu := strictUnder_of_under hde hx
                have hff : f ∈ fs0.files := hfe ▸ hfm
                rw [hfiles f hff] at hdu
                exact Bool.noConfusion hdu
            rw [hsf]
            rfl
          · intro e' he'
            have hse : strictUnder e e' = false := by
              cases hx : strictUnder e e'
              · rfl
              · exfalso
                obtain ⟨hp, hne⟩ := strictUnder_iff.mp hx
                have hlt := prefix_len_lt hp hne
                have hdu := strictUnder_of_under hde hx
                obtain ⟨hp', _⟩ := strictUnder_iff.mp hdu
                have := hbound e' he' hp'
                omega
            rw [hse]
            rfl
        have hc : ¬((exclude.any fun k => decide (k = e.getLastD "")) = true) := by
          rw [hexk]
          exact fun h => Bool.noConfusion h
        unfold removeIfEmpty at he1
        rw [if_neg hc, if_pos hempty] at he1
        have he2 : e ∈ fs.dirs.erase e := he1
        have := (List.Nodup.mem_erase_iff hnd).mp he2
        exact absurd rfl this.1
      · exact hin (removeIfEmpty_dirs_subset _ _ _ he1)
    · exact hnin hlen h1

/-- After the rounds from level `l` down, nothing of the empty subtree of
`d` is left but (possibly) the root path itself. -/
theorem cleanupRounds_subtree {d : FsPath} {exclude : List String} {fs0 : FS}
    (hfiles : ∀ f ∈ fs0.files, strictUnder d f.1 = false)
    (hex : ∀ e ∈ fs0.dirs, d <+: e →
      (exclude.any fun k => decide (k = e.getLastD "")) = false) :
    ∀ (l : Nat) (fs : FS),
      fs.files = fs0.files → fs.dirs ⊆ fs0.dirs → fs.dirs.Nodup →
      (∀ e ∈ fs.dirs, d <+: e → e.length ≤ l) →
      ∀ e ∈ (cleanupRounds exclude fs0.dirs l fs).dirs, d <+: e →
        e.length = 0 := by
  intro l
  induction l with
  | zero =>
    intro fs hfe hsub hnd hbound e he hde
    exact Nat.le_zero.mp (hbound e he hde)
  | succ l ih =>
    intro fs hfe hsub hnd hbound
    unfold cleanupRounds
    have hkey := foldl_removeIfEmpty_subtree l hfiles hex
      (fs0.dirs.filter (fun d' => decide (d'.length = l + 1))) fs
      hfe hsub hnd hbound
    have hfe1 : ((fs0.dirs.filter (fun d' => decide (d'.length = l + 1))).foldl
        (removeIfEmpty exclude) fs).files = fs0.files := by
      rw [foldl_removeIfEmpty_files]; exact hfe
    have hsub1 : ((fs0.dirs.filter (fun d' => decide (d'.length = l + 1))).foldl
        (removeIfEmpty exclude) fs).dirs ⊆ fs0.dirs :=
      fun a h => hsub (foldl_removeIfEmpty_dirs_subset exclude
        (fs0.dirs.filter (fun d' => decide (d'.length = l + 1))) fs h)
    have hnd1 := foldl_removeIfEmpty_dirs_nodup exclude
      (fs0.dirs.filter (fun d' => decide (d'.length = l + 1))) fs hnd
    have hbound1 : ∀ e ∈ ((fs0.dirs.filter
        (fun d' => decide (d'.length = l + 1))).foldl
          (removeIfEmpty exclude) fs).dirs, d <+: e → e.length ≤ l := by
      intro e he hde
      obtain ⟨hb, hnin⟩ := hkey e he hde
      rcases Nat.lt_or_ge e.length (l + 1) with hlt | hge
      · omega
      · exfalso
        have hlen : e.length = l + 1 := by omega
        apply hnin hlen
        exact List.mem_filter.mpr ⟨hsub1 he, by simp [hlen]⟩
    exact ih _ hfe1 hsub1 hnd1 hbound1

/-- An entirely empty subtree, none of whose directory names is excluded,
is completely removed by the cleanup pass. -/
theorem cleanup_removes_empty_subtree {fs : FS} {exclude : List String}
    {d : FsPath} (hdne : d ≠ []) (hnd : fs.dirs.Nodup)
    (hfiles : ∀ f ∈ fs.files, strictUnder d f.1 = false)
    (hex : ∀ e ∈ fs.dirs, d <+: e →
      (exclude.any fun k => decide (k = e.getLastD "")) = false) :
    d ∉ (cleanup_empty_dirs fs exclude).dirs := by
  intro hmem
  unfold cleanup_empty_dirs at hmem
  have h0 := cleanupRounds_subtree hfiles hex (maxLen fs.dirs) fs rfl
    (fun a h => h) hnd (fun e he _ => length_le_maxLen he) d hmem
    ⟨[], List.append_nil d⟩
  exact hdne (List.length_eq_zero.mp h0)

/-! ## After an error-free run every file sits in its key folder -/

theorem eq_pair_of_dropLast {p : FsPath} {key : String}
    (h : p.dropLast = [key]) : p = [key, p.getLastD ""] := by
  match p with
  | [] => simp at h
  | [a] => simp at h
  | [a, b] =>
    have ha : a = key := by simpa using h
    subst ha
    rfl
  | a :: b :: c :: rest =>
    exfalso
    have hl := congrArg List.length h
    rw [List.length_dropLast] at hl
    simp at hl

theorem destCandidate_shape (key name : String) (j : Nat) :
    ∃ c, destCandidate key name j = [key, c] := by
  cases j with
  | zero => exact ⟨name, rfl⟩
  | succ k => exact ⟨_, rfl⟩

theorem moveFile_skip {key : String} {st : MoveState} {p : FsPath}
    (h : p.dropLast = [key]) : moveFile key st p = st := by
  unfold moveFile
  rw [if_pos h]

theorem moveFile_move {key : String} {st : MoveState} {p : FsPath}
    (h1 : ¬ p.dropLast = [key])
    (h2 : (st.fs.files.any fun f => decide (f.1 = p)) = true) :
    moveFile key st p =
      { fs :=
          { files :=
              shutil_move st.fs.files p
                (destCandidate key (p.getLastD "")
                  (resolveDestIdx st.fs key (p.getLastD ""))),
            dirs := st.fs.dirs },
        moved := st.moved + 1, errors := st.errors } := by
  unfold moveFile
  rw [if_neg h1, if_pos h2]

theorem moveFile_missing {key : String} {st : MoveState} {p : FsPath}
    (h1 : ¬ p.dropLast = [key])
    (h2 : (st.fs.files.any fun f => decide (f.1 = p)) = false) :
    moveFile key st p = { st with errors := st.errors + 1 } := by
  unfold moveFile
  rw [if_neg h1, if_neg (by rw [h2]; exact fun hh => Bool.noConfusion hh)]

theorem moveFile_errors_le (key : String) (st : MoveState) (p : FsPath) :
    st.errors ≤ (moveFile key st p).errors := by
  by_cases h1 : p.dropLast = [key]
  · rw [moveFile_skip h1]
  · by_cases h2 : (st.fs.files.any fun f => decide (f.1 = p)) = true
    · rw [moveFile_move h1 h2]
    · rw [moveFile_missing h1 (bool_eq_false h2)]
      exact Nat.le_succ _

theorem foldl_moveFile_errors_le (key : String) (ps : List FsPath) :
    ∀ st : MoveState, st.errors ≤ (ps.foldl (moveFile key) st).errors := by
  induction ps with
  | nil => intro st; exact Nat.le_refl _
  | cons p ps ih =>
    intro st
    rw [List.foldl_cons]
    exact le_trans (moveFile_errors_le key st p) (ih _)

theorem processGroup_errors_le (st : MoveState) (g : String × List FsPath) :
    st.errors ≤ (processGroup st g).errors := by
  unfold processGroup
  by_cases h1 : (st.fs.files.any fun f => decide (f.1 = [g.1])) = true
  · rw [if_pos h1]
    exact Nat.le_add_right _ _
  · rw [if_neg h1]
    exact foldl_moveFile_errors_le g.1 g.2
      ⟨if (st.fs.dirs.any fun d => decide (d = [g.1])) = true then st.fs
        else { files := st.fs.files, dirs := st.fs.dirs ++ [[g.1]] },
        st.moved, st.errors⟩

theorem foldl_processGroup_errors_le (gs : List (String × List FsPath)) :
    ∀ st : MoveState, st.errors ≤ (gs.foldl processGroup st).errors := by
  induction gs with
  | nil => intro st; exact Nat.le_refl _
  | cons g gs ih =>
    intro st
    rw [List.foldl_cons]
    exact le_trans (processGroup_errors_le st g) (ih _)

/-! ### Structural invariants of `groupByKey` -/

theorem insertGrouped_keyConsistent {acc : List (String × List FsPath)}
    {q : FsPath} (h : KeyConsistent acc) :
    KeyConsistent (insertGrouped (fileKey q) q acc) := by
  induction acc with
  | nil =>
    intro g hg p hp
    simp only [insertGrouped, List.mem_singleton] at hg
    subst hg
    simp only [List.mem_singleton] at hp
    subst hp
    rfl
  | cons g0 acc ih =>
    match g0 with
    | (k0, ps0) =>
      by_cases he : k0 = fileKey q
      · intro g hg p hp
        simp only [insertGrouped, if_pos he] at hg
        rcases List.mem_cons.mp hg with h1 | h1
        · subst h1
          simp only at hp
          rcases List.mem_append.mp hp with h2 | h2
          · exact h (k0, ps0) (List.mem_cons_self _ _) p h2
          · simp only [List.mem_singleton] at h2
            subst h2
            exact he.symm
        · exact h g (List.mem_cons_of_mem _ h1) p hp
      · intro g hg p hp
        simp only [insertGrouped, if_neg he] at hg
        rcases List.mem_cons.mp hg with h1 | h1
        · subst h1
          exact h (k0, ps0) (List.mem_cons_self _ _) p hp
        · exact ih (fun g' hg' => h g' (List.mem_cons_of_mem _ hg')) g h1 p hp

theorem insertGrouped_membersFrom {acc : List (String × List FsPath)}
    {L : List FsPath} {k : String} {q : FsPath} (h : MembersFrom acc L)
    (hq : q ∈ L) : MembersFrom (insertGrouped k q acc) L := by
  induction acc with
  | nil =>
    intro g hg p hp
    simp only [insertGrouped, List.mem_singleton] at hg
    subst hg
    simp only [List.mem_singleton] at hp
    subst hp
    exact hq
  | cons g0 acc ih =>
    match g0 with
    | (k0, ps0) =>
      by_cases he : k0 = k
      · intro g hg p hp
        simp only [insertGrouped, if_pos he] at hg
        rcases List.mem_cons.mp hg with h1 | h1
        · subst h1
          simp only at hp
          rcases List.mem_append.mp hp with h2 | h2
          · exact h (k0, ps0) (List.mem_cons_self _ _) p h2
          · simp only [List.mem_singleton] at h2
            subst h2
            exact hq
        · exact h g (List.mem_cons_of_mem _ h1) p hp
      · intro g hg p hp
        simp only [insertGrouped, if_neg he] at hg
        rcases List.mem_cons.mp hg with h1 | h1
        · subst h1
          exact h (k0, ps0) (List.mem_cons_self _ _) p hp
        · exact ih (fun g' hg' => h g' (List.mem_cons_of_mem _ hg')) g h1 p hp

theorem insertGrouped_groups_ne_nil {acc : List (String × List FsPath)}
    {k : String} {q : FsPath} (h : ∀ g ∈ acc, g.2 ≠ []) :
    ∀ g ∈ insertGrouped k q acc, g.2 ≠ [] := by
  induction acc with
  | nil =>
    intro g hg
    simp only [insertGrouped, List.mem_singleton] at hg
    subst hg
    simp
  | cons g0 acc ih =>
    match g0 with
    | (k0, ps0) =>
      by_cases he : k0 = k
      · intro g hg
        simp only [insertGrouped, if_pos he] at hg
        rcases List.mem_cons.mp hg with h1 | h1
        · subst h1; simp
        · exact h g (List.mem_cons_of_mem _ h1)
      · intro g hg
        simp only [insertGrouped, if_neg he] at hg
        rcases List.mem_cons.mp hg with h1 | h1
        · subst h1
          exact h (k0, ps0) (List.mem_cons_self _ _)
        · exact ih (fun g' hg' => h g' (List.mem_cons_of_mem _ hg')) g h1

/-- A path already placed in some group stays placed. -/
theorem insertGrouped_covers_mono {acc : List (String × List FsPath)}
    {k : String} {q p : FsPath} (h : ∃ g ∈ acc, p ∈ g.2) :
    ∃ g ∈ insertGrouped k q acc, p ∈ g.2 := by
  induction acc with
  | nil => simp at h
  | cons g0 acc ih =>
    match g0 with
    | (k0, ps0) =>
      obtain ⟨g, hg, hp⟩ := h
      by_cases he : k0 = k
      · rcases List.mem_cons.mp hg with h1 | h1
        · subst h1
          exact ⟨(k0, ps0 ++ [q]), by simp [insertGrouped, he],
            List.mem_append.mpr (Or.inl hp)⟩
        · refine ⟨g, ?_, hp⟩
          simp only [insertGrouped, if_pos he]
          exact List.mem_cons_of_mem _ h1
      · rcases List.mem_cons.mp hg with h1 | h1
        · subst h1
          refine ⟨(k0, ps0), ?_, hp⟩
          simp only [insertGrouped, if_neg he]
          exact List.mem_cons_self _ _
        · obtain ⟨g', hg', hp'⟩ := ih ⟨g, h1, hp⟩
          refine ⟨g', ?_, hp'⟩
          simp only [insertGrouped, if_neg he]
          exact List.mem_cons_of_mem _ hg'

theorem insertGrouped_covers_self (k : String) (q : FsPath) :
    ∀ acc : List (String × List FsPath), ∃ g ∈ insertGrouped k q acc, q ∈ g.2 := by
  intro acc
  induction acc with
  | nil => exact ⟨(k, [q]), by simp [insertGrouped]⟩
  | cons g0 acc ih =>
    match g0 with
    | (k0, ps0) =>
      by_cases he : k0 = k
      · exact ⟨(k0, ps0 ++ [q]), by simp [insertGrouped, he], by simp⟩
      · obtain ⟨g, hg, hq⟩ := ih
        refine ⟨g, ?_, hq⟩
        simp only [insertGrouped, if_neg he]
        exact List.mem_cons_of_mem _ hg

theorem groupByKey_covers {p : FsPath} {paths : List FsPath} (h : p ∈ paths) :
    ∃ g ∈ groupByKey paths, p ∈ g.2 := by
  unfold groupByKey
  have hgen : ∀ (paths : List FsPath) (acc : List (String × List FsPath)),
      p ∈ paths ∨ (∃ g ∈ acc, p ∈ g.2) →
      ∃ g ∈ paths.foldl (fun acc p => insertGrouped (fileKey p) p acc) acc,
        p ∈ g.2 := by
    intro paths
    induction paths with
    | nil =>
      intro acc h'
      rcases h' with h1 | h1
      · simp at h1
      · exact h1
    | cons q paths ih =>
      intro acc h'
      rw [List.foldl_cons]
      rcases h' with h1 | h1
      · rcases List.mem_cons.mp h1 with h2 | h2
        · subst h2
          exact ih _ (Or.inr (insertGrouped_covers_self _ _ _))
        · exact ih _ (Or.inl h2)
      · exact ih _ (Or.inr (insertGrouped_covers_mono h1))
  exact hgen paths [] (Or.inl h)

theorem groupByKey_keyConsistent (paths : List FsPath) :
    KeyConsistent (groupByKey paths) := by
  unfold groupByKey
  have hgen : ∀ (paths : List FsPath) (acc : List (String × List FsPath)),
      KeyConsistent acc →
      KeyConsistent (paths.foldl (fun acc p => insertGrouped (fileKey p) p acc)
        acc) := by
    intro paths
    induction paths with
    | nil => intro acc h; exact h
    | cons q paths ih =>
      intro acc h
      rw [List.foldl_cons]
      exact ih _ (insertGrouped_keyConsistent h)
  exact hgen paths [] (fun g hg => by simp at hg)

theorem groupByKey_membersFrom (paths : List FsPath) :
    MembersFrom (groupByKey paths) paths := by
  unfold groupByKey
  have hgen : ∀ (rem : List FsPath) (acc : List (String × List FsPath)),
      (∀ q ∈ rem, q ∈ paths) → MembersFrom acc paths →
      MembersFrom (rem.foldl (fun acc p => insertGrouped (fileKey p) p acc)
        acc) paths := by
    intro rem
    induction rem with
    | nil => intro acc _ h; exact h
    | cons q rem ih =>
      intro acc hrem h
      rw [List.foldl_cons]
      exact ih _ (fun q' hq' => hrem q' (List.mem_cons_of_mem _ hq'))
        (insertGrouped_membersFrom h (hrem q (List.mem_cons_self _ _)))
  exact hgen paths [] (fun q hq => hq) (fun g hg => by simp at hg)

theorem groupByKey_groups_ne_nil (paths : List FsPath) :
    ∀ g ∈ groupByKey paths, g.2 ≠ [] := by
  unfold groupByKey
  have hgen : ∀ (rem : List FsPath) (acc : List (String × List FsPath)),
      (∀ g ∈ acc, g.2 ≠ []) →
      ∀ g ∈ rem.foldl (fun acc p => insertGrouped (fileKey p) p acc) acc,
        g.2 ≠ [] := by
    intro rem
    induction rem with
    | nil => intro acc h; exact h
    | cons q rem ih =>
      intro acc h
      rw [List.foldl_cons]
      exact ih _ (insertGrouped_groups_ne_nil h)
  exact hgen paths [] (fun g hg => by simp at hg)

theorem shutil_move_mem {files : List (FsPath × Nat)} {src dst : FsPath}
    {f' : FsPath × Nat} (h : f' ∈ shutil_move files src dst) :
    ∃ f0 ∈ files, (if f0.1 = src then (dst, f0.2) else f0) = f' := by
  unfold shutil_move at h
  obtain ⟨f0, hf0, he⟩ := List.mem_map.mp h
  exact ⟨f0, (List.mem_filter.mp hf0).1, he⟩

theorem organize_dir_of_empty {fs : FS} (h : (get_all_files fs).isEmpty = true) :
    organize_dir fs =
      (fs, { moved := 0, errors := 0, removed := 0,
             invalidDir := false, nothingToDo := true }) := by
  simp [organize_dir, h]

theorem organize_dir_of_nonempty {fs : FS}
    (h : (get_all_files fs).isEmpty = false) :
    organize_dir fs =
      (cleanup_empty_dirs
          ((groupByKey (get_all_files fs)).foldl processGroup
            ⟨fs, 0, 0⟩).fs
          ((groupByKey (get_all_files fs)).map (fun g => g.1)),
        { moved := ((groupByKey (get_all_files fs)).foldl processGroup
            ⟨fs, 0, 0⟩).moved,
          errors := ((groupByKey (get_all_files fs)).foldl processGroup
            ⟨fs, 0, 0⟩).errors,
          removed := ((groupByKey (get_all_files fs)).foldl processGroup
              ⟨fs, 0, 0⟩).fs.dirs.length -
            (cleanup_empty_dirs
              ((groupByKey (get_all_files fs)).foldl processGroup
                ⟨fs, 0, 0⟩).fs
              ((groupByKey (get_all_files fs)).map (fun g => g.1))).dirs.length,
          invalidDir := false, nothingToDo := false }) := by
  simp [organize_dir, h]

/-- The per-file loop of one group: if it finishes without a new error,
every file is settled afterwards or still waits in a later group. -/
theorem foldl_moveFile_settled {key : String} (ps : List FsPath)
    (hkey : ∀ p ∈ ps, fileKey p = key ∧
      (p.getLastD "").data.getLast? ≠ some '.') :
    ∀ (st : MoveState) (R : FsPath → Prop),
      (∀ f ∈ st.fs.files, Settled f ∨ f.1 ∈ ps ∨ R f.1) →
      (ps.foldl (moveFile key) st).errors = st.errors →
      ∀ f ∈ (ps.foldl (moveFile key) st).fs.files, Settled f ∨ R f.1 := by
  induction ps with
  | nil =>
    intro st R hinv herr f hf
    rcases hinv f hf with h | h | h
    · exact Or.inl h
    · simp at h
    · exact Or.inr h
  | cons p ps ih =>
    intro st R hinv herr f hf
    rw [List.foldl_cons] at herr hf
    have hkp := hkey p (List.mem_cons_self _ _)
    have hkps : ∀ q ∈ ps, fileKey q = key ∧
        (q.getLastD "").data.getLast? ≠ some '.' :=
      fun q hq => hkey q (List.mem_cons_of_mem _ hq)
    by_cases h1 : p.dropLast = [key]
    · rw [moveFile_skip h1] at herr hf
      refine ih hkps st R ?_ herr f hf
      intro f' hf'
      rcases hinv f' hf' with h | h | h
      · exact Or.inl h
      · rcases List.mem_cons.mp h with h2 | h2
        · left
          exact ⟨key, p.getLastD "", by rw [h2]; exact eq_pair_of_dropLast h1,
            hkp.1⟩
        · exact Or.inr (Or.inl h2)
      · exact Or.inr (Or.inr h)
    · by_cases h2 : (st.fs.files.any fun f => decide (f.1 = p)) = true
      · rw [moveFile_move h1 h2] at herr hf
        refine ih hkps _ R ?_ herr f hf
        intro f' hf'
        have hf'' : f' ∈ shutil_move st.fs.files p
            (destCandidate key (p.getLastD "")
              (resolveDestIdx st.fs key (p.getLastD ""))) := hf'
        obtain ⟨f0, hf0, he0⟩ := shutil_move_mem hf''
        by_cases hsrc : f0.1 = p
        · left
          rw [if_pos hsrc] at he0
          obtain ⟨c, hc⟩ := destCandidate_shape key (p.getLastD "")
            (resolveDestIdx st.fs key (p.getLastD ""))
          have hfk := fileKey_destCandidate key (p.getLastD "")
            (resolveDestIdx st.fs key (p.getLastD "")) hkp.2
          rw [hc] at hfk
          have hek : extensionKey c = key := by
            have h3 : extensionKey c = extensionKey (p.getLastD "") := hfk
            rw [h3]
            exact hkp.1
          refine ⟨key, c, ?_, hek⟩
          rw [← he0]
          exact congrArg (fun q => q) (by rw [hc])
        · rw [if_neg hsrc] at he0
          rw [← he0]
          rcases hinv f0 hf0 with h | h | h
          · exact Or.inl h
          · rcases List.mem_cons.mp h with h3 | h3
            · exact absurd h3 hsrc
            · exact Or.inr (Or.inl h3)
          · exact Or.inr (Or.inr h)
      · exfalso
        rw [moveFile_missing h1 (bool_eq_false h2)] at herr
        have hle := foldl_moveFile_errors_le key ps
          { st with errors := st.errors + 1 }
        rw [herr] at hle
        simp at hle

/-- The per-group loop: if the whole run finishes without errors, every
file ends up settled. -/
theorem foldl_processGroup_settled (gs : List (String × List FsPath))
    (hkeys : ∀ g ∈ gs, ∀ p ∈ g.2, fileKey p = g.1 ∧
      (p.getLastD "").data.getLast? ≠ some '.')
    (hne : ∀ g ∈ gs, g.2 ≠ []) :
    ∀ st : MoveState,
      (∀ f ∈ st.fs.files, Settled f ∨ ∃ g ∈ gs, f.1 ∈ g.2) →
      (gs.foldl processGroup st).errors = st.errors →
      ∀ f ∈ (gs.foldl processGroup st).fs.files, Settled f := by
  induction gs with
  | nil =>
    intro st hinv herr f hf
    rcases hinv f hf with h | ⟨g, hg, _⟩
    · exact h
    · simp at hg
  | cons g gs ih =>
    intro st hinv herr f hf
    rw [List.foldl_cons] at herr hf
    by_cases h1 : (st.fs.files.any fun f => decide (f.1 = [g.1])) = true
    · exfalso
      have hpg : processGroup st g =
          { st with errors := st.errors + g.2.length } := by
        unfold processGroup
        rw [if_pos h1]
      rw [hpg] at herr
      have hle := foldl_processGroup_errors_le gs
        { st with errors := st.errors + g.2.length }
      rw [herr] at hle
      have hlen : 1 ≤ g.2.length := by
        cases hq : g.2 with
        | nil => exact absurd hq (hne g (List.mem_cons_self _ _))
        | cons a l => simp [hq]
      have hle2 : st.errors + g.2.length ≤ st.errors := hle
      omega
    · have hpg : processGroup st g = g.2.foldl (moveFile g.1)
          { fs :=
              if st.fs.dirs.any (fun d => decide (d = [g.1])) then st.fs
              else { files := st.fs.files, dirs := st.fs.dirs ++ [[g.1]] },
            moved := st.moved, errors := st.errors } := by
        unfold processGroup
        rw [if_neg h1]
      rw [hpg] at herr hf
      have hSTfiles :
          (if st.fs.dirs.any (fun d => decide (d = [g.1])) then st.fs
            else { files := st.fs.files,
                   dirs := st.fs.dirs ++ [[g.1]] } : FS).files =
            st.fs.files := by
        by_cases hc : (st.fs.dirs.any fun d => decide (d = [g.1])) = true
        · rw [if_pos hc]
        · rw [if_neg hc]
      have hmid1 := foldl_moveFile_errors_le g.1 g.2
        { fs :=
            if st.fs.dirs.any (fun d => decide (d = [g.1])) then st.fs
            else { files := st.fs.files, dirs := st.fs.dirs ++ [[g.1]] },
          moved := st.moved, errors := st.errors }
      have hmid2 := foldl_processGroup_errors_le gs
        (g.2.foldl (moveFile g.1)
          { fs :=
              if st.fs.dirs.any (fun d => decide (d = [g.1])) then st.fs
              else { files := st.fs.files, dirs := st.fs.dirs ++ [[g.1]] },
            moved := st.moved, errors := st.errors })
      have heq1 : (g.2.foldl (moveFile g.1)
          { fs :=
              if st.fs.dirs.any (fun d => decide (d = [g.1])) then st.fs
              else { files := st.fs.files, dirs := st.fs.dirs ++ [[g.1]] },
            moved := st.moved, errors := st.errors }).errors = st.errors := by
        rw [herr] at hmid2
        simp only at hmid1
        omega
      have hsettled := foldl_moveFile_settled g.2
        (hkeys g (List.mem_cons_self _ _))
        { fs :=
            if st.fs.dirs.any (fun d => decide (d = [g.1])) then st.fs
            else { files := st.fs.files, dirs := st.fs.dirs ++ [[g.1]] },
          moved := st.moved, errors := st.errors }
        (fun q => ∃ g' ∈ gs, q ∈ g'.2)
        (by
          intro f' hf'
          rw [hSTfiles] at hf'
          rcases hinv f' hf' with h | ⟨g', hg', hq⟩
          · exact Or.inl h
          · rcases List.mem_cons.mp hg' with h3 | h3
            · subst h3
              exact Or.inr (Or.inl hq)
            · exact Or.inr (Or.inr ⟨g', h3, hq⟩))
        heq1
      refine ih (fun g' hg' => hkeys g' (List.mem_cons_of_mem _ hg'))
        (fun g' hg' => hne g' (List.mem_cons_of_mem _ hg')) _ hsettled ?_ f hf
      rw [herr, heq1]

theorem foldl_moveFile_all_skip {key : String} (ps : List FsPath)
    (h : ∀ p ∈ ps, p.dropLast = [key]) :
    ∀ st : MoveState, ps.foldl (moveFile key) st = st := by
  induction ps with
  | nil => intro st; rfl
  | cons p ps ih =>
    intro st
    rw [List.foldl_cons, moveFile_skip (h p (List.mem_cons_self _ _))]
    exact ih (fun q hq => h q (List.mem_cons_of_mem _ hq)) st

/-- When every group member already sits directly in its key folder, the
move loop does nothing: no file moved, no error. -/
theorem foldl_processGroup_noop (gs : List (String × List FsPath))
    (hpairs : ∀ g ∈ gs, ∀ p ∈ g.2, p = [g.1, p.getLastD ""]) :
    ∀ st : MoveState, (∀ f ∈ st.fs.files, ∃ k n, f.1 = [k, n]) →
      (gs.foldl processGroup st).moved = st.moved ∧
      (gs.foldl processGroup st).errors = st.errors ∧
      (gs.foldl processGroup st).fs.files = st.fs.files := by
  induction gs with
  | nil => intro st _; exact ⟨rfl, rfl, rfl⟩
  | cons g gs ih =>
    intro st hf2
    rw [List.foldl_cons]
    have h1 : (st.fs.files.any fun f => decide (f.1 = [g.1])) = false := by
      apply bool_eq_false
      intro hany
      simp only [List.any_eq_true, decide_eq_true_eq] at hany
      obtain ⟨f, hfm, hfe⟩ := hany
      obtain ⟨k, n, hkn⟩ := hf2 f hfm
      rw [hkn] at hfe
      exact absurd hfe (by simp)
    have hpg : processGroup st g = g.2.foldl (moveFile g.1)
        { fs :=
            if st.fs.dirs.any (fun d => decide (d = [g.1])) then st.fs
            else { files := st.fs.files, dirs := st.fs.dirs ++ [[g.1]] },
          moved := st.moved, errors := st.errors } := by
      unfold processGroup
      rw [if_neg (by rw [h1]; exact fun hh => Bool.noConfusion hh)]
    rw [hpg]
    rw [foldl_moveFile_all_skip g.2 (fun p hp => by
      rw [hpairs g (List.mem_cons_self _ _) p hp]
      rfl)]
    have hSTfiles :
        (if st.fs.dirs.any (fun d => decide (d = [g.1])) then st.fs
          else { files := st.fs.files,
                 dirs := st.fs.dirs ++ [[g.1]] } : FS).files =
          st.fs.files := by
      by_cases hc : (st.fs.dirs.any fun d => decide (d = [g.1])) = true
      · rw [if_pos hc]
      · rw [if_neg hc]
    obtain ⟨hm, he, hff⟩ := ih
      (fun g' hg' => hpairs g' (List.mem_cons_of_mem _ hg'))
      { fs :=
          if st.fs.dirs.any (fun d => decide (d = [g.1])) then st.fs
          else { files := st.fs.files, dirs := st.fs.dirs ++ [[g.1]] },
        moved := st.moved, errors := st.errors }
      (by
        intro f hfm
        rw [hSTfiles] at hfm
        exact hf2 f hfm)
    exact ⟨hm, he, by rw [hff, hSTfiles]⟩

/-- On a filesystem where every file is already settled, the organizer
moves nothing and reports no error. -/
theorem organize_dir_noop_of_settled (fs1 : FS)
    (hs : ∀ f ∈ fs1.files, Settled f) :
    (organize_dir fs1).2.moved = 0 ∧ (organize_dir fs1).2.errors = 0 := by
  by_cases hE : (get_all_files fs1).isEmpty = true
  · rw [organize_dir_of_empty hE]
    exact ⟨rfl, rfl⟩
  · rw [organize_dir_of_nonempty (bool_eq_false hE)]
    have hpairs : ∀ g ∈ groupByKey (get_all_files fs1), ∀ p ∈ g.2,
        p = [g.1, p.getLastD ""] := by
      intro g hg p hp
      have hmem := groupByKey_membersFrom (get_all_files fs1) g hg p hp
      obtain ⟨f, hfm, hfe⟩ := List.mem_map.mp hmem
      obtain ⟨k, n, hkn, hkey⟩ := hs f hfm
      have hk := groupByKey_keyConsistent (get_all_files fs1) g hg p hp
      have hpkn : p = [k, n] := by rw [← hfe, hkn]
      have hg1 : g.1 = k := by
        rw [hpkn] at hk
        have h4 : extensionKey n = g.1 := hk
        rw [hkey] at h4
        exact h4.symm
      rw [hpkn, hg1]
      rfl
    have hf2 : ∀ f ∈ fs1.files, ∃ k n, f.1 = [k, n] := by
      intro f hf
      obtain ⟨k, n, hkn, _⟩ := hs f hf
      exact ⟨k, n, hkn⟩
    obtain ⟨hm, he, _⟩ := foldl_processGroup_noop _ hpairs ⟨fs1, 0, 0⟩ hf2
    exact ⟨hm, he⟩

/-- After an error-free run on a tree with no trailing-dot filenames,
every file is settled in its extension folder. -/
theorem organize_dir_settled {fs : FS}
    (hne : (get_all_files fs).isEmpty = false)
    (herr : (organize_dir fs).2.errors = 0)
    (hgood : ∀ p ∈ get_all_files fs, (p.getLastD "").data.getLast? ≠ some '.') :
    ∀ f ∈ (organize_dir fs).1.files, Settled f := by
  rw [organize_dir_of_nonempty hne] at herr ⊢
  intro f hf
  have herr2 : ((groupByKey (get_all_files fs)).foldl processGroup
      ⟨fs, 0, 0⟩).errors = 0 := herr
  have hf2 : f ∈ (cleanup_empty_dirs
      ((groupByKey (get_all_files fs)).foldl processGroup ⟨fs, 0, 0⟩).fs
      ((groupByKey (get_all_files fs)).map (fun g => g.1))).files := hf
  rw [cleanup_empty_dirs_files] at hf2
  refine foldl_processGroup_settled (groupByKey (get_all_files fs))
    ?_ (groupByKey_groups_ne_nil _) ⟨fs, 0, 0⟩ ?_ herr2 f hf2
  · intro g hg p hp
    exact ⟨groupByKey_keyConsistent _ g hg p hp,
      hgood p (groupByKey_membersFrom _ g hg p hp)⟩
  · intro f' hf'
    right
    exact groupByKey_covers (List.mem_map_of_mem _ hf')

/-! ## The claims -/

/-- C1: whenever the Mover relocates a file and `<destination>/<original
filename>` is occupied, it instead uses `<stem>_<N><suffix>` with `N`
counting up from 1 until an unoccupied name is found: the chosen candidate
is free and every earlier candidate was occupied (so no existing file is
overwritten), and in the concrete two-source scenario both same-named
files end up under the destination folder under distinct names, neither
content lost. -/
theorem claim_C1 :
    (∀ (fs : FS) (key name : String),
      pathExists fs (destCandidate key name (resolveDestIdx fs key name))
          = false ∧
        ∀ j, j < resolveDestIdx fs key name →
          pathExists fs (destCandidate key name j) = true) ∧
    ((organize_dir exampleTwin).1.files =
        [(["TXT", "f.txt"], 10), (["TXT", "f_1.txt"], 20)] ∧
      (organize_dir exampleTwin).2.errors = 0) := by
  constructor
  · intro fs key name
    exact ⟨(resolveDestIdx_spec fs key name).1,
      fun j hj => (resolveDestIdx_spec fs key name).2 j hj⟩
  · constructor
    · decide
    · decide

theorem claim_C1_witness :
    pathExists exampleOccupied (destCandidate "TXT" "f.txt" 0) = true :=
  (claim_C1.1 exampleOccupied "TXT" "f.txt").2 0 (by decide)

/-- C2: a run on a valid directory keeps the list of file contents intact
entry for entry: the total number of files is unchanged and every file
present before the run is present somewhere under the root afterwards. -/
theorem claim_C2 (fs : FS) :
    contents (organize_dir fs).1 = contents fs ∧
    (organize_dir fs).1.files.length = fs.files.length ∧
    ∀ f ∈ fs.files, ∃ f' ∈ (organize_dir fs).1.files, f'.2 = f.2 := by
  refine ⟨organize_dir_contents fs, ?_, ?_⟩
  · have h := congrArg List.length (organize_dir_contents fs)
    simpa [contents] using h
  · intro f hf
    have h1 : f.2 ∈ contents (organize_dir fs).1 := by
      rw [organize_dir_contents fs]
      exact List.mem_map_of_mem _ hf
    obtain ⟨f', hf', he⟩ := List.mem_map.mp h1
    exact ⟨f', hf', he⟩

theorem claim_C2_witness :
    ∃ f' ∈ (organize_dir exampleC4).1.files,
      f'.2 = ((["a.txt"], 0) : FsPath × Nat).2 :=
  (claim_C2 exampleC4).2.2 (["a.txt"], 0) (by decide)

/-- C3 counterexample: the claim fails as stated.  On the tree holding
`file.` and `sub/file.` (legal names on a POSIX filesystem), the first run
moves both into `NO_EXTENSION/`, renaming the second to `file._1`; that
name's extension key is `_1`, so a second run with no external changes
moves it again instead of moving zero files. -/
theorem claim_C3_counterexample :
    ¬ ((organize_dir ((organize_dir exampleTrailingDot).1)).2.moved = 0) := by
  decide

/-- C3 (amended): running the organizer twice in succession with no
external changes moves zero files in the second run — and errors none —
provided the first run finished with zero errors and no scanned filename
ends in a dot (a trailing-dot name gets a collision suffix that changes
its extension key, and an errored first run leaves files outside their
folders; both resume moving on the second run). -/
theorem claim_C3 (fs : FS)
    (herr : (organize_dir fs).2.errors = 0)
    (hgood : ∀ p ∈ get_all_files fs, (p.getLastD "").data.getLast? ≠ some '.') :
    (organize_dir ((organize_dir fs).1)).2.moved = 0 ∧
      (organize_dir ((organize_dir fs).1)).2.errors = 0 := by
  by_cases hE : (get_all_files fs).isEmpty = true
  · rw [organize_dir_of_empty hE]
    show (organize_dir fs).2.moved = 0 ∧ (organize_dir fs).2.errors = 0
    rw [organize_dir_of_empty hE]
    exact ⟨rfl, rfl⟩
  · exact organize_dir_noop_of_settled _
      (organize_dir_settled (bool_eq_false hE) herr hgood)

theorem claim_C3_witness :
    (organize_dir ((organize_dir exampleC4).1)).2.moved = 0 :=
  (claim_C3 exampleC4 (by decide) (by decide)).1

/-- C4: on the root holding exactly `a.txt`, `b.txt` and `sub/b.txt`, one
run leaves exactly `TXT/a.txt`, `TXT/b.txt` and `TXT/b_1.txt`, removes
`sub`, and reports 3 files moved and 0 errors. -/
theorem claim_C4 :
    (organize_dir exampleC4).1.files =
      [(["TXT", "a.txt"], 0), (["TXT", "b.txt"], 1), (["TXT", "b_1.txt"], 2)] ∧
    (organize_dir exampleC4).1.dirs = [["TXT"]] ∧
    (organize_dir exampleC4).2.moved = 3 ∧
    (organize_dir exampleC4).2.errors = 0 := by
  refine ⟨?_, ?_, ?_, ?_⟩ <;> decide

/-- C5: the Classifier assigns every filename exactly one key — the
uppercased text after the last dot, or `NO_EXTENSION` for an extensionless
name (per the usual convention, dotfiles and trailing-dot names are
extensionless) — and in particular `report.PDF` and `notes.pdf` both map
to `PDF` while `README` maps to `NO_EXTENSION`. -/
theorem claim_C5 :
    (∀ name : String, extensionKey name = specExtensionKey name) ∧
    extensionKey "report.PDF" = "PDF" ∧
    extensionKey "notes.pdf" = "PDF" ∧
    extensionKey "README" = "NO_EXTENSION" := by
  refine ⟨extensionKey_eq_specExtensionKey, ?_, ?_, ?_⟩ <;> decide

/-- C6: on an input path that does not exist or is not a directory, the
run reports the invalid-directory error and returns with the filesystem
untouched and zero counters — a normal return, not a crash. -/
theorem claim_C6 (r : RootInput) (h : rootIsDir r = false) :
    organize_files r =
      (r, { moved := 0, errors := 0, removed := 0,
            invalidDir := true, nothingToDo := false }) := by
  match r with
  | .missing => rfl
  | .nonDirFile c => rfl
  | .dir fs => simp [rootIsDir] at h

theorem claim_C6_witness :
    organize_files RootInput.missing =
      (RootInput.missing,
        { moved := 0, errors := 0, removed := 0,
          invalidDir := true, nothingToDo := false }) :=
  claim_C6 RootInput.missing (by decide)

/-- C7: when a group's destination folder cannot be created (a plain file
occupies its path), every file of the group is counted as an error and
none is moved, while the remaining groups are still processed — shown
concretely: the file `TXT` blocks the `TXT` group (1 error, `a.txt` left
in place) while the `NO_EXTENSION` group still moves it. -/
theorem claim_C7 :
    (∀ (st : MoveState) (g : String × List FsPath),
      (st.fs.files.any fun f => decide (f.1 = [g.1])) = true →
      processGroup st g = { st with errors := st.errors + g.2.length }) ∧
    ((organize_dir exampleKeyFile).2.errors = 1 ∧
      (organize_dir exampleKeyFile).2.moved = 1 ∧
      (["a.txt"], 1) ∈ (organize_dir exampleKeyFile).1.files ∧
      (["NO_EXTENSION", "TXT"], 2) ∈ (organize_dir exampleKeyFile).1.files) := by
  constructor
  · intro st g h
    unfold processGroup
    rw [if_pos h]
  · refine ⟨?_, ?_, ?_, ?_⟩ <;> decide

theorem claim_C7_witness :
    processGroup ⟨exampleKeyFile, 0, 0⟩ ("TXT", [["a.txt"]]) =
      { fs := exampleKeyFile, moved := 0, errors := 1 } :=
  claim_C7.1 ⟨exampleKeyFile, 0, 0⟩ ("TXT", [["a.txt"]]) (by decide)

/-- C8: the Cleaner works bottom-up with the emptiness check made at
removal time: an entirely empty subtree (none of whose names is excluded)
is removed completely in the single pass; a directory with a file below it
is never removed; only directories of the tree are ever removed and the
root (which is not a removable entry) always survives. -/
theorem claim_C8 (fs : FS) (exclude : List String) (d : FsPath) :
    (d ≠ [] → fs.dirs.Nodup →
      (∀ f ∈ fs.files, strictUnder d f.1 = false) →
      (∀ e ∈ fs.dirs, d <+: e →
        (exclude.any fun k => decide (k = e.getLastD "")) = false) →
      d ∉ (cleanup_empty_dirs fs exclude).dirs) ∧
    ((∃ f ∈ fs.files, strictUnder d f.1 = true) → d ∈ fs.dirs →
      d ∈ (cleanup_empty_dirs fs exclude).dirs) ∧
    (cleanup_empty_dirs fs exclude).dirs ⊆ fs.dirs ∧
    ([] ∉ fs.dirs → [] ∉ (cleanup_empty_dirs fs exclude).dirs) := by
  refine ⟨?_, ?_, cleanup_dirs_subset fs exclude, ?_⟩
  · intro hdne hnd hfiles hex
    exact cleanup_removes_empty_subtree hdne hnd hfiles hex
  · intro hf hd
    exact cleanup_keeps_nonempty fs exclude hf hd
  · intro h hmem
    exact h (cleanup_dirs_subset fs exclude hmem)

theorem claim_C8_witness :
    (["a"] ∉ (cleanup_empty_dirs exampleChain ["TXT"]).dirs) ∧
    (["z"] ∈ (cleanup_empty_dirs exampleChain ["TXT"]).dirs) := by
  constructor
  · exact (claim_C8 exampleChain ["TXT"] ["a"]).1 (by decide) (by decide)
      (by decide) (by decide)
  · exact (claim_C8 exampleChain ["TXT"] ["z"]).2.1
      ⟨(["z", "f.txt"], 0), by decide, by decide⟩ (by decide)

/-- C9: the Cleaner's exclusion is by directory basename, not by path: any
directory anywhere in the tree whose name equals an extension key observed
in this run is still there after the run, even when empty and not a
destination folder created under the root. -/
theorem claim_C9 (fs : FS) (d : FsPath) (hd : d ∈ fs.dirs)
    (hk : ∃ p ∈ get_all_files fs, fileKey p = d.getLastD "") :
    d ∈ (organize_dir fs).1.dirs := by
  obtain ⟨p, hp, hkey⟩ := hk
  have hne : (get_all_files fs).isEmpty = false := by
    cases hq : get_all_files fs with
    | nil => rw [hq] at hp; simp at hp
    | cons a l => rfl
  rw [organize_dir_of_nonempty hne]
  refine cleanup_keeps_excluded _ ?_ ?_
  · have hm := fileKey_mem_groupByKey_keys hp
    rw [hkey] at hm
    exact hm
  · exact foldl_processGroup_dirs_mono _ _ hd

theorem claim_C9_witness :
    ["sub", "PDF"] ∈ (organize_dir exampleNested).1.dirs :=
  claim_C9 exampleNested ["sub", "PDF"] (by decide)
    ⟨["x", "a.pdf"], by decide, by decide⟩

/-- C10: when the recursive scan finds no files under a valid root, the
run mutates nothing at all: no destination folder is created, no directory
is removed (pre-existing empty subdirectories survive), and the run
reports the nothing-to-do short-circuit with zero counters. -/
theorem claim_C10 (fs : FS) (h : fs.files = []) :
    organize_files (RootInput.dir fs) =
      (RootInput.dir fs,
        { moved := 0, errors := 0, removed := 0,
          invalidDir := false, nothingToDo := true }) := by
  have hE : (get_all_files fs).isEmpty = true := by
    unfold get_all_files
    rw [h]
    rfl
  show ((RootInput.dir (organize_dir fs).1), (organize_dir fs).2) = _
  rw [organize_dir_of_empty hE]

theorem claim_C10_witness :
    organize_files (RootInput.dir exampleEmptyDirs) =
      (RootInput.dir exampleEmptyDirs,
        { moved := 0, errors := 0, removed := 0,
          invalidDir := false, nothingToDo := true }) :=
  claim_C10 exampleEmptyDirs rfl

end FileMovement
